import Mathlib

/-!
Shallow embedding of `examples/pyet/pyet.py`: conversion routines between
the etensor/etable structures and numpy / pandas / torch representations,
together with the `PyEtable` container defined in that file.

Conventions of the embedding:
* Machine integers are `Int` with explicit wrapping where a conversion
  narrows; float values never undergo arithmetic anywhere in this code, so
  a float element is carried as its raw bit pattern (a `Nat`).
* Python exceptions are `Except ConvError`; a bare `except` handler
  corresponds to catching every `ConvError`.
* The platform is the 64-bit one this glue code runs on (gopy on LP64):
  the Go `int` element type of `etensor.Int` is 64 bits wide, numpy's
  `np.intc` is the same dtype object as `np.int32`, and `np.int_` is the
  same dtype object as `np.int64`.
-/

deriving instance DecidableEq for Except

namespace Pyet

/-- Product of a list of dimension sizes. -/
def prodL : List Nat → Nat
  | [] => 1
  | n :: t => n * prodL t

/-- Python dict as an insertion-ordered association list with unique keys:
assigning to an existing key replaces its value in place, a new key is
appended at the end. -/
def dictSet {α : Type} : List (String × α) → String → α → List (String × α)
  | [], k, v => [(k, v)]
  | (k0, v0) :: t, k, v =>
    if k0 = k then (k, v) :: t else (k0, v0) :: dictSet t k v

/-- Python dict lookup. -/
def dictGet? {α : Type} (m : List (String × α)) (k : String) : Option α :=
  (m.find? (fun p => p.1 == k)).map (fun p => p.2)

/-- Index of the last occurrence of a name in a list, if any. -/
def lastIdx? : List String → String → Option Nat
  | [], _ => none
  | a :: t, nm =>
    match lastIdx? t nm with
    | some i => some (i + 1)
    | none => if a = nm then some 0 else none

/-- Element type tags of `etensor.Tensor`. Modelled from the spec: the
etensor package itself is not under src/; the spec fixes the closed
supported set to the thirteen tags below, and `UNKNOWN` stands for any
tag outside that closed set. -/
inductive EType where
  | UINT8 | INT8 | UINT16 | INT16 | UINT32 | INT32 | UINT64 | INT64
  | FLOAT32 | FLOAT64 | STRING | INT | BOOL | UNKNOWN
deriving DecidableEq

/-- A scalar element value. A float is represented by its raw bit
pattern, which is faithful because no path in this code performs float
arithmetic: floats are only copied. -/
inductive EVal where
  | i : Int → EVal
  | f : Nat → EVal
  | s : String → EVal
  | b : Bool → EVal
deriving DecidableEq

/-- Whether a value is a well-formed element of the given tensor type
(integer in range, float bit pattern of the right width, matching kind).
`UNKNOWN` has no values. The `INT` element type is Go `int`, 64 bits on
this platform. -/
def EType.fits : EType → EVal → Bool
  | .UINT8, .i z => decide (0 ≤ z ∧ z < 256)
  | .INT8, .i z => decide (-128 ≤ z ∧ z < 128)
  | .UINT16, .i z => decide (0 ≤ z ∧ z < 65536)
  | .INT16, .i z => decide (-32768 ≤ z ∧ z < 32768)
  | .UINT32, .i z => decide (0 ≤ z ∧ z < 4294967296)
  | .INT32, .i z => decide (-2147483648 ≤ z ∧ z < 2147483648)
  | .UINT64, .i z => decide (0 ≤ z ∧ z < 18446744073709551616)
  | .INT64, .i z => decide (-9223372036854775808 ≤ z ∧ z < 9223372036854775808)
  | .FLOAT32, .f bits => decide (bits < 4294967296)
  | .FLOAT64, .f bits => decide (bits < 18446744073709551616)
  | .STRING, .s _ => true
  | .INT, .i z => decide (-9223372036854775808 ≤ z ∧ z < 9223372036854775808)
  | .BOOL, .b _ => true
  | _, _ => false

/-- Zero element used by the `etensor.NewX` constructors. -/
def EType.zero : EType → EVal
  | .FLOAT32 => .f 0
  | .FLOAT64 => .f 0
  | .STRING => .s ""
  | .BOOL => .b false
  | _ => .i 0

/-- The element types inside the closed dispatch set. -/
def EType.supported : EType → Bool
  | .UNKNOWN => false
  | _ => true

/-- Numpy dtypes this code can produce or dispatch on. On the 64-bit
platform the code runs on, `np.intc` IS the dtype `np.int32` and
`np.int_` IS the dtype `np.int64` (numpy dtype equality identifies
them), so they are not separate tags here. `str_` covers the string
dtypes (`np.string_` / `np.str_`), `object_` stands for any dtype
outside the dispatch set. -/
inductive NDtype where
  | uint8 | int8 | uint16 | int16 | uint32 | int32 | uint64 | int64
  | float32 | float64 | str_ | bool_ | object_
deriving DecidableEq

/-- Well-formed element of a numpy dtype. -/
def NDtype.fits : NDtype → EVal → Bool
  | .uint8, .i z => decide (0 ≤ z ∧ z < 256)
  | .int8, .i z => decide (-128 ≤ z ∧ z < 128)
  | .uint16, .i z => decide (0 ≤ z ∧ z < 65536)
  | .int16, .i z => decide (-32768 ≤ z ∧ z < 32768)
  | .uint32, .i z => decide (0 ≤ z ∧ z < 4294967296)
  | .int32, .i z => decide (-2147483648 ≤ z ∧ z < 2147483648)
  | .uint64, .i z => decide (0 ≤ z ∧ z < 18446744073709551616)
  | .int64, .i z => decide (-9223372036854775808 ≤ z ∧ z < 9223372036854775808)
  | .float32, .f bits => decide (bits < 4294967296)
  | .float64, .f bits => decide (bits < 18446744073709551616)
  | .str_, .s _ => true
  | .bool_, .b _ => true
  | _, _ => false

/-- The numpy dtype that the `etensor_to_numpy` dispatch pairs with each
tensor element type (`INT` goes to `np.intc`, which is `int32` here). -/
def dtypeOf : EType → NDtype
  | .UINT8 => .uint8
  | .INT8 => .int8
  | .UINT16 => .uint16
  | .INT16 => .int16
  | .UINT32 => .uint32
  | .INT32 => .int32
  | .UINT64 => .uint64
  | .INT64 => .int64
  | .FLOAT32 => .float32
  | .FLOAT64 => .float64
  | .STRING => .str_
  | .INT => .int32
  | .BOOL => .bool_
  | .UNKNOWN => .object_

/-- Modelled from the spec: `etensor.Tensor` (the etensor package is not
under src/) is a flat value buffer tagged with one element type, plus an
integer shape; the buffer length equals the product of the shape
dimensions. A `Bits` tensor is represented by its logical boolean
values. -/
structure ETensor where
  dtype : EType
  shape : List Nat
  values : List EVal
deriving DecidableEq

/-- Tensor invariant: every element fits the declared type and the
buffer length is the product of the shape. -/
def ETensor.wf (et : ETensor) : Prop :=
  et.values.all (EType.fits et.dtype) = true ∧ et.values.length = prodL et.shape

/-- A numpy ndarray: dtype, shape, and the row-major flattened values. -/
structure NDArray where
  dtype : NDtype
  shape : List Nat
  values : List EVal
deriving DecidableEq

/-- Array invariant: every element fits the dtype and the buffer length
is the product of the shape. -/
def NDArray.wf (nar : NDArray) : Prop :=
  nar.values.all (NDtype.fits nar.dtype) = true ∧ nar.values.length = prodL nar.shape

instance (et : ETensor) : Decidable et.wf := by
  unfold ETensor.wf
  infer_instance

instance (nar : NDArray) : Decidable nar.wf := by
  unfold NDArray.wf
  infer_instance

/-- A raised Python exception: `unsupportedType` is the `TypeError`
raised by the dispatch chains, `valueError` a numpy `ValueError`,
`lookupError` a `KeyError` / `LookupError` / `IndexError` from a name or
index lookup. -/
inductive ConvError where
  | unsupportedType : String → ConvError
  | valueError : String → ConvError
  | lookupError : String → ConvError
deriving DecidableEq

/-- Numpy `ndarray.reshape`: succeeds exactly when the element count
matches the product of the requested shape. -/
def npReshape (nar : NDArray) (shp : List Nat) : Except ConvError NDArray :=
  if nar.values.length = prodL shp then .ok { nar with shape := shp }
  else .error (.valueError "cannot reshape array")

/-- Conversion of one element by `np.array(values, dtype=np.intc)`: a
64-bit Go int is cast C-style to the 32-bit `intc`, wrapping modulo
2^32 (the numpy of this code's era wraps silently). -/
def intcCast : EVal → EVal
  | .i z => .i ((z + 2147483648) % 4294967296 - 2147483648)
  | v => v

/-- Translation of `etensor_to_numpy(et)`: dispatch on the declared
element type; copy the flat buffer into a fresh 1-D numpy array of the
matching dtype; reshape to the tensor shape. The `INT` branch passes
`dtype=np.intc`, i.e. `int32` on this platform, so each element is
narrowed by `intcCast`. The `BOOL` branch reads the bits one by one
into a fresh boolean array. A type outside the dispatch set raises a
`TypeError` before any output is produced. -/
def etensor_to_numpy (et : ETensor) : Except ConvError NDArray :=
  match et.dtype with
  | .UINT8 => npReshape { dtype := .uint8, shape := [et.values.length], values := et.values } et.shape
  | .INT8 => npReshape { dtype := .int8, shape := [et.values.length], values := et.values } et.shape
  | .UINT16 => npReshape { dtype := .uint16, shape := [et.values.length], values := et.values } et.shape
  | .INT16 => npReshape { dtype := .int16, shape := [et.values.length], values := et.values } et.shape
  | .UINT32 => npReshape { dtype := .uint32, shape := [et.values.length], values := et.values } et.shape
  | .INT32 => npReshape { dtype := .int32, shape := [et.values.length], values := et.values } et.shape
  | .UINT64 => npReshape { dtype := .uint64, shape := [et.values.length], values := et.values } et.shape
  | .INT64 => npReshape { dtype := .int64, shape := [et.values.length], values := et.values } et.shape
  | .FLOAT32 => npReshape { dtype := .float32, shape := [et.values.length], values := et.values } et.shape
  | .FLOAT64 => npReshape { dtype := .float64, shape := [et.values.length], values := et.values } et.shape
  | .STRING => npReshape { dtype := .str_, shape := [et.values.length], values := et.values } et.shape
  | .INT => npReshape { dtype := .int32, shape := [et.values.length], values := et.values.map intcCast } et.shape
  | .BOOL => npReshape { dtype := .bool_, shape := [et.values.length], values := et.values } et.shape
  | .UNKNOWN => .error (.unsupportedType "tensor with type cannot be converted")

/-- Conversion of one element on the Go side when a numpy value is
stored into a tensor buffer (slice copy or `Set1D`): a Go integer
conversion wraps to the width of the destination element type; same
kind and width is the identity. A cross-kind cast that would have to
reinterpret float bit patterns or parse strings occurs on no path any
claim touches and is left as the identity on the value. -/
def etCast : EType → EVal → EVal
  | .UINT8, .i z => .i (z % 256)
  | .INT8, .i z => .i ((z + 128) % 256 - 128)
  | .UINT16, .i z => .i (z % 65536)
  | .INT16, .i z => .i ((z + 32768) % 65536 - 32768)
  | .UINT32, .i z => .i (z % 4294967296)
  | .INT32, .i z => .i ((z + 2147483648) % 4294967296 - 2147483648)
  | .UINT64, .i z => .i (z % 18446744073709551616)
  | .INT64, .i z => .i ((z + 9223372036854775808) % 18446744073709551616 - 9223372036854775808)
  | .INT, .i z => .i ((z + 9223372036854775808) % 18446744073709551616 - 9223372036854775808)
  | .FLOAT32, .f bits => .f bits
  | .FLOAT64, .f bits => .f bits
  | .STRING, .s v => .s v
  | .BOOL, .b bv => .b bv
  | .BOOL, .i z => .b (z != 0)
  | _, v => v

/-- Go `copy(dst, src)` semantics with an element conversion: the first
`min dst.length src.length` entries of `dst` are overwritten by the
converted entries of `src`, the rest of `dst` is unchanged. -/
def goCopyCast (cast : EVal → EVal) (dst src : List EVal) : List EVal :=
  (src.take dst.length).map cast ++ dst.drop src.length

/-- Modelled from the spec: an `etensor.NewX(shape, nil, nil)`
constructor allocates a tensor of the given tag and shape with a
zero-initialized buffer. -/
def newETensor (d : EType) (shp : List Nat) : ETensor :=
  { dtype := d, shape := shp, values := List.replicate (prodL shp) d.zero }

/-- Allocation plus `Values.copy(narf)` (or the `Set1D` loop for bits),
the common body of every `numpy_to_etensor` branch: a fresh tensor of
the array shape whose buffer receives the flattened array values. The
bit-loop branch writes every source element; that loop assumes the
destination is at least as long, which the equal-shape allocation
guarantees for a well-formed array. -/
def newFromArray (d : EType) (nar : NDArray) : ETensor :=
  { dtype := d, shape := nar.shape,
    values := goCopyCast (etCast d) (newETensor d nar.shape).values nar.values }

/-- Translation of `numpy_to_etensor(nar)`: dispatch on the native
dtype; allocate a new tensor of the matching tag and the array shape;
copy the flattened buffer in. Because `np.int_` is `np.int64` and
`np.intc` is `np.int32` on this platform, the branch testing those two
dtypes is subsumed by the `int64` and `int32` branches above it and an
`etensor.Int` is never produced. An array dtype outside the dispatch
set raises a `TypeError`. -/
def numpy_to_etensor (nar : NDArray) : Except ConvError ETensor :=
  match nar.dtype with
  | .uint8 => .ok (newFromArray .UINT8 nar)
  | .int8 => .ok (newFromArray .INT8 nar)
  | .uint16 => .ok (newFromArray .UINT16 nar)
  | .int16 => .ok (newFromArray .INT16 nar)
  | .uint32 => .ok (newFromArray .UINT32 nar)
  | .int32 => .ok (newFromArray .INT32 nar)
  | .uint64 => .ok (newFromArray .UINT64 nar)
  | .int64 => .ok (newFromArray .INT64 nar)
  | .float32 => .ok (newFromArray .FLOAT32 nar)
  | .float64 => .ok (newFromArray .FLOAT64 nar)
  | .str_ => .ok (newFromArray .STRING nar)
  | .bool_ => .ok (newFromArray .BOOL nar)
  | .object_ => .error (.unsupportedType "numpy ndarray with type cannot be converted")

/-- Conversion of one element stored into a numpy buffer
(`np.copyto(..., casting=unsafe)` or an element assignment): integers
wrap to the destination width, a boolean stored into a numeric dtype
becomes 0/1, a number stored into a boolean dtype is a zero test; same
kind and width is the identity. Cross-kind casts that would have to
reinterpret float bit patterns or parse strings occur on no path any
claim touches and are left as the identity on the value; a string
stored into a string buffer is kept whole, although numpy would
truncate it to the destination array's fixed itemsize (no claim
theorem relies on the string case). -/
def npCastU : NDtype → EVal → EVal
  | .uint8, .i z => .i (z % 256)
  | .int8, .i z => .i ((z + 128) % 256 - 128)
  | .uint16, .i z => .i (z % 65536)
  | .int16, .i z => .i ((z + 32768) % 65536 - 32768)
  | .uint32, .i z => .i (z % 4294967296)
  | .int32, .i z => .i ((z + 2147483648) % 4294967296 - 2147483648)
  | .uint64, .i z => .i (z % 18446744073709551616)
  | .int64, .i z => .i ((z + 9223372036854775808) % 18446744073709551616 - 9223372036854775808)
  | .uint8, .b bv => .i (if bv then 1 else 0)
  | .int8, .b bv => .i (if bv then 1 else 0)
  | .uint16, .b bv => .i (if bv then 1 else 0)
  | .int16, .b bv => .i (if bv then 1 else 0)
  | .uint32, .b bv => .i (if bv then 1 else 0)
  | .int32, .b bv => .i (if bv then 1 else 0)
  | .uint64, .b bv => .i (if bv then 1 else 0)
  | .int64, .b bv => .i (if bv then 1 else 0)
  | .bool_, .b bv => .b bv
  | .bool_, .i z => .b (z != 0)
  | .float32, .f bits => .f bits
  | .float64, .f bits => .f bits
  | .str_, .s v => .s v
  | _, v => v

/-- Translation of `copy_etensor_to_numpy(nar, et)`: copies the tensor
(source) into the existing numpy array (destination). The non-bool
branches select the tensor buffer and run
`np.copyto(narf, etv, casting=unsafe)`, which needs equal flat lengths
and casts every element to the destination dtype. The `BOOL` branch
assigns the first `min` elements one by one and leaves the rest of the
array unchanged. The result is the updated array. Caveat: a numpy
string column has a fixed itemsize and `np.copyto` truncates longer
source strings to it; the unbounded-string model does not capture that
truncation, so no claim theorem asserts the string copy. -/
def copy_etensor_to_numpy (nar : NDArray) (et : ETensor) : Except ConvError NDArray :=
  match et.dtype with
  | .UNKNOWN => .error (.unsupportedType "tensor with type cannot be copied")
  | .BOOL =>
    let sz := min et.values.length nar.values.length
    .ok { nar with values :=
      ((et.values.take sz).map (npCastU nar.dtype)) ++ nar.values.drop sz }
  | _ =>
    if nar.values.length = et.values.length then
      .ok { nar with values := et.values.map (npCastU nar.dtype) }
    else .error (.valueError "could not broadcast input array")

/-- Translation of `copy_numpy_to_etensor(et, nar)`: documented as
copying the numpy array (source) into the existing tensor
(destination). The non-bool branches select the tensor buffer and run
`etv.copy(narf)`, a Go slice copy with an element conversion to the
tensor element type, which copies `min` of the two lengths. The `BOOL`
branch however runs `narf[i] = etb.Value1D(i)` — the very same loop as
the other direction — so it writes the tensor values INTO the numpy
array and leaves the tensor untouched. The result is the pair of the
updated tensor and the updated numpy array. -/
def copy_numpy_to_etensor (et : ETensor) (nar : NDArray) : Except ConvError (ETensor × NDArray) :=
  match et.dtype with
  | .UNKNOWN => .error (.unsupportedType "tensor with type cannot be copied")
  | .BOOL =>
    let sz := min et.values.length nar.values.length
    .ok (et, { nar with values :=
      ((et.values.take sz).map (npCastU nar.dtype)) ++ nar.values.drop sz })
  | d =>
    .ok ({ et with values := goCopyCast (etCast d) et.values nar.values }, nar)

/-- Modelled from the spec: `etable.Table` (the etable Go package is not
under src/) is an ordered list of tensor columns and their parallel
names, a row count, and string metadata entries with unique keys. -/
structure ETable where
  Cols : List ETensor
  ColNames : List String
  Rows : Nat
  MetaData : List (String × String)
deriving DecidableEq

/-- Modelled from the spec: `Table.AddCol` appends a column under a
name. -/
def ETable.AddCol (dt : ETable) (tsr : ETensor) (nm : String) : ETable :=
  { dt with Cols := dt.Cols ++ [tsr], ColNames := dt.ColNames ++ [nm] }

/-- Modelled from the spec: `Table.SetMetaData` sets one metadata
key. -/
def ETable.SetMetaData (dt : ETable) (k v : String) : ETable :=
  { dt with MetaData := dictSet dt.MetaData k v }

/-- Modelled from the spec: `Table.ColByNameTry` returns the column of
the given name or an error when the name is absent. -/
def ETable.ColByNameTry (dt : ETable) (nm : String) : Except ConvError ETensor :=
  match dt.ColNames.findIdx? (fun x => x == nm) with
  | some i =>
    match dt.Cols[i]? with
    | some c => .ok c
    | none => .error (.lookupError "column index out of range")
  | none => .error (.lookupError "column named not found")

/-- Table invariant used by the round-trip statements: parallel column
lists, well-formed columns of supported type, unique metadata keys. -/
def ETable.wf (dt : ETable) : Prop :=
  dt.Cols.length = dt.ColNames.length ∧
  (∀ c ∈ dt.Cols, c.wf) ∧
  (∀ c ∈ dt.Cols, c.dtype.supported = true) ∧
  (dt.MetaData.map Prod.fst).Nodup

instance (dt : ETable) : Decidable dt.wf := by
  unfold ETable.wf
  infer_instance

/-- The `PyEtable` class: columns as numpy arrays, parallel names, a row
count, the name-to-index dict and the metadata dict. -/
structure PyEtable where
  Cols : List NDArray
  ColNames : List String
  Rows : Nat
  ColNameMap : List (String × Nat)
  MetaData : List (String × String)
deriving DecidableEq

/-- The `PyEtable.__init__` state. -/
def PyEtable.empty : PyEtable :=
  { Cols := [], ColNames := [], Rows := 0, ColNameMap := [], MetaData := [] }

/-- The dict built by `UpdateColNameMap`: `map[nm] = i` assigned for
each name in order, so a repeated name keeps the index of its last
occurrence. -/
def mkColNameMap (names : List String) : List (String × Nat) :=
  names.enum.foldl (fun m p => dictSet m p.2 p.1) []

/-- Translation of `PyEtable.UpdateColNameMap`. -/
def PyEtable.UpdateColNameMap (dt : PyEtable) : PyEtable :=
  { dt with ColNameMap := mkColNameMap dt.ColNames }

/-- Translation of `PyEtable.AddCol`: append the array and the name,
then rebuild the name map. -/
def PyEtable.AddCol (dt : PyEtable) (nar : NDArray) (name : String) : PyEtable :=
  PyEtable.UpdateColNameMap
    { dt with Cols := dt.Cols ++ [nar], ColNames := dt.ColNames ++ [name] }

/-- Translation of `PyEtable.ColByName`: the column of the given name
via the name map, or a `LookupError` when the name is absent (an index
out of range would raise as well). -/
def PyEtable.ColByName (dt : PyEtable) (name : String) : Except ConvError NDArray :=
  match dictGet? dt.ColNameMap name with
  | some i =>
    match dt.Cols[i]? with
    | some c => .ok c
    | none => .error (.lookupError "column index out of range")
  | none => .error (.lookupError "column named not found")

/-- Numpy `np.column_stack` for 1-D inputs (the only use in this code):
stacks k equal-length 1-D arrays as the columns of a (rows, k) array,
row-major. As numpy does, it rejects an empty input list, and this
model also rejects ragged or higher-rank input (numpy would error or
concatenate; all call sites here pass equal-length 1-D columns). The
result dtype is taken from the first input; dtype promotion of mixed
inputs is not modelled, every call site stacks columns of one dtype. -/
def columnStack (cls : List NDArray) : Except ConvError NDArray :=
  match cls with
  | [] => .error (.valueError "need at least one array to stack")
  | c0 :: rest =>
    if (c0 :: rest).all (fun c => c.shape == [c.values.length]) &&
       rest.all (fun c => c.values.length == c0.values.length) then
      .ok { dtype := c0.dtype,
            shape := [c0.values.length, (c0 :: rest).length],
            values := (List.range c0.values.length).flatMap
              (fun r => (c0 :: rest).map (fun c => c.values.getD r (EVal.i 0))) }
    else .error (.valueError "arrays must have the same length")

/-- Translation of `PyEtable.MergeCols(st_nm, n)`: look the start column
up in the name map (a `KeyError` when absent), column-stack the `n`
columns starting there, store the stack at the start index, delete the
following `n - 1` columns and names, rebuild the name map. -/
def PyEtable.MergeCols (dt : PyEtable) (st_nm : String) (n : Nat) : Except ConvError PyEtable :=
  match dictGet? dt.ColNameMap st_nm with
  | none => .error (.lookupError "KeyError")
  | some sti =>
    match columnStack ((dt.Cols.drop sti).take n) with
    | .error e => .error e
    | .ok nc =>
      let cols1 := dt.Cols.set sti nc
      .ok (PyEtable.UpdateColNameMap
        { dt with
          Cols := cols1.take (sti + 1) ++ cols1.drop (sti + n),
          ColNames := dt.ColNames.take (sti + 1) ++ dt.ColNames.drop (sti + n) })

/-- Translation of `PyEtable.ReshapeCol(colnm, shp)`: reshape the named
column (a `KeyError` when the name is absent, an `IndexError` when the
mapped index is stale, a numpy error when the size does not match). -/
def PyEtable.ReshapeCol (dt : PyEtable) (colnm : String) (shp : List Nat) : Except ConvError PyEtable :=
  match dictGet? dt.ColNameMap colnm with
  | none => .error (.lookupError "KeyError")
  | some ci =>
    match dt.Cols[ci]? with
    | none => .error (.lookupError "list index out of range")
    | some dc =>
      match npReshape dc shp with
      | .error e => .error e
      | .ok dc2 => .ok { dt with Cols := dt.Cols.set ci dc2 }

/-- Translation of `etable_to_py(et)`: convert every tensor column with
`etensor_to_numpy`, adding it under the same name (the source iterates
the two parallel lists by one index; the table invariant keeps them
equally long, which the zip realizes), then copy the metadata entries.
Iterating `et.MetaData` as key/value pairs is modelled from the spec
(the gopy map wrapper is not under src/). A conversion error has no
handler and propagates. `toPyStep` is one loop iteration. -/
def toPyStep (pt : PyEtable) (p : ETensor × String) : Except ConvError PyEtable := do
  let nar ← etensor_to_numpy p.1
  pure (pt.AddCol nar p.2)

def etable_to_py (et : ETable) : Except ConvError PyEtable := do
  let withCols ← (et.Cols.zip et.ColNames).foldlM toPyStep
    { PyEtable.empty with Rows := et.Rows }
  pure { withCols with
         MetaData := et.MetaData.foldl (fun m p => dictSet m p.1 p.2) withCols.MetaData }

/-- Translation of `py_to_etable(pt)`: a fresh `etable.Table` with the
row count, one converted column per PyEtable column in order, and the
metadata entries set one by one. A conversion error propagates.
`toEtStep` is one loop iteration. -/
def toEtStep (et : ETable) (p : NDArray × String) : Except ConvError ETable := do
  let tsr ← numpy_to_etensor p.1
  pure (et.AddCol tsr p.2)

def py_to_etable (pt : PyEtable) : Except ConvError ETable := do
  let withCols ← (pt.Cols.zip pt.ColNames).foldlM toEtStep
    { Cols := [], ColNames := [], Rows := pt.Rows, MetaData := [] }
  pure (pt.MetaData.foldl (fun et p => et.SetMetaData p.1 p.2) withCols)

/-- One loop iteration of `copy_etable_to_py`: look the same-named
table column up and copy it into the PyEtable column; the bare
`except: pass` handler catches ANY exception — a missing name, but
equally the `TypeError` of an unsupported element type — and leaves the
column as it was. -/
def pyToNpCol (et : ETable) (p : NDArray × String) : NDArray :=
  match et.ColByNameTry p.2 with
  | .error _ => p.1
  | .ok dc =>
    match copy_etensor_to_numpy p.1 dc with
    | .error _ => p.1
    | .ok nar2 => nar2

/-- Translation of `copy_etable_to_py(pt, et)`: runs `pyToNpCol` on
every (column, name) pair of the PyEtable. -/
def copy_etable_to_py (pt : PyEtable) (et : ETable) : PyEtable :=
  { pt with Cols := ((pt.Cols.zip pt.ColNames).map (pyToNpCol et)) }

/-- Store an updated array back into the PyEtable column it was read
from (the python code mutates the array in place through the alias; the
functional model writes it back through the same name lookup). -/
def PyEtable.setColByName (pt : PyEtable) (name : String) (nar : NDArray) : PyEtable :=
  match dictGet? pt.ColNameMap name with
  | some i => { pt with Cols := pt.Cols.set i nar }
  | none => pt

/-- Translation of `copy_py_to_etable(et, pt)`: for every table column,
look the same-named PyEtable column up and run `copy_numpy_to_etensor`;
the bare `except: pass` handler catches any exception and skips the
column. Because the bool branch of `copy_numpy_to_etensor` writes into
the numpy side, the PyEtable state is threaded through as well, and the
result is the pair of the updated table and the updated PyEtable.
`copyPyStep` is one loop iteration, threading the pair of the output
column list and the PyEtable state. -/
def copyPyStep (st : List ETensor × PyEtable) (p : ETensor × String) :
    List ETensor × PyEtable :=
  match st.2.ColByName p.2 with
  | .error _ => (st.1 ++ [p.1], st.2)
  | .ok pc =>
    match copy_numpy_to_etensor p.1 pc with
    | .error _ => (st.1 ++ [p.1], st.2)
    | .ok q => (st.1 ++ [q.1], st.2.setColByName p.2 q.2)

def copy_py_to_etable (et : ETable) (pt : PyEtable) : ETable × PyEtable :=
  let res := (et.Cols.zip et.ColNames).foldl copyPyStep ([], pt)
  ({ et with Cols := res.1 }, res.2)

/-- What `copy_py_to_etable` does to one (column, name) pair when the
PyEtable state is fixed: the updated tensor, or the tensor unchanged
when the name lookup or the copy raised. -/
def pyCopyResult (pt : PyEtable) (p : ETensor × String) : ETensor :=
  match pt.ColByName p.2 with
  | .error _ => p.1
  | .ok pc =>
    match copy_numpy_to_etensor p.1 pc with
    | .error _ => p.1
    | .ok q => q.1

/-- Translation of `etable_to_torch(et)`: the ordered sequence of
per-column torch tensors, skipping every string-dtype column;
`torch.from_numpy` shares the buffer, so a dataset entry is represented
by the column array itself. -/
def etable_to_torch (et : PyEtable) : List NDArray :=
  et.Cols.filter (fun dc => !(dc.dtype == NDtype.str_))

/-- A pandas DataFrame: ordered named 1-D columns of one common
length. -/
structure DataFrame where
  cols : List (String × NDArray)
deriving DecidableEq

/-- The name of the i-th spread column, `"%s_%d" % (cn, i)`. -/
def spreadName (cn : String) (i : Nat) : String :=
  cn ++ "_" ++ toString i

/-- The 1-D column `rs[:, i]` of the `(rows, csz)` reshape of a
column's flat values. -/
def colSlice (dc : NDArray) (rows csz i : Nat) : NDArray :=
  { dtype := dc.dtype, shape := [rows],
    values := (List.range rows).map (fun r => dc.values.getD (r * csz + i) (EVal.i 0)) }

/-- Whether all columns of a column dict share one length
(`pd.DataFrame` requires it). -/
def allSameLen : List (String × NDArray) → Bool
  | [] => true
  | p :: t => t.all (fun q => q.2.values.length == p.2.values.length)

/-- Translation of `etable_to_pandas(et, skip_tensors)`: a 1-D column
enters the dict directly under its name; a higher-rank column is
reshaped to `(Rows, cellSize)` with `cellSize = size / Rows` (a zero
row count raises `ZeroDivisionError`) and spread into `cellSize` 1-D
columns named `name_i` — or skipped entirely when `skip_tensors`. A
duplicate generated name overwrites the earlier dict entry in place, as
a python dict assignment does. Building the DataFrame from the dict
requires all columns to share one length. -/
def pandasStep (rows : Nat) (skip_tensors : Bool) (ed : List (String × NDArray)) :
    NDArray × String → Except ConvError (List (String × NDArray))
  | (dc, cn) =>
    if dc.shape.length = 1 then
      pure (dictSet ed cn dc)
    else if skip_tensors then
      pure ed
    else if rows = 0 then
      throw (ConvError.valueError "division by zero")
    else do
      let csz := dc.values.length / rows
      let rs ← npReshape dc [rows, csz]
      pure ((List.range csz).foldl
        (fun ed2 i => dictSet ed2 (spreadName cn i) (colSlice rs rows csz i)) ed)

def etable_to_pandas (et : PyEtable) (skip_tensors : Bool) : Except ConvError DataFrame := do
  let ed ← (et.Cols.zip et.ColNames).foldlM (pandasStep et.Rows skip_tensors) []
  if allSameLen ed then pure { cols := ed }
  else throw (ConvError.valueError "arrays must all be same length")

/-- Translation of `pandas_to_etable(df)`: a fresh PyEtable whose row
count is the frame row count (`len(df.index)`, the common column
length, 0 for an empty frame) and one 1-D column per frame column in
order. -/
def pandas_to_etable (df : DataFrame) : PyEtable :=
  let rows := match df.cols with
    | [] => 0
    | p :: _ => p.2.values.length
  df.cols.foldl (fun pt p => pt.AddCol p.2 p.1) { PyEtable.empty with Rows := rows }

/-- What one round trip through `etensor_to_numpy` then
`numpy_to_etensor` actually produces for a supported tensor: every type
except platform `INT` comes back identical; an `INT` tensor comes back
tagged `INT32` with each value narrowed to 32 bits. -/
def rtResult (et : ETensor) : ETensor :=
  if et.dtype = EType.INT then
    { dtype := EType.INT32, shape := et.shape, values := et.values.map intcCast }
  else et

/-- The coordination invariant of claim C10: the parallel column lists
have one length, and the name map sends each name occurring in the name
list to the index of its last occurrence and contains no other keys. -/
def colMapInv (dt : PyEtable) : Prop :=
  dt.Cols.length = dt.ColNames.length ∧
  ∀ nm, dictGet? dt.ColNameMap nm = lastIdx? dt.ColNames nm

/-- Decimal digit characters of a natural number, most significant
digit first: the character list underlying `Nat.repr`, phrased through
`Nat.digits` so that facts about decimal representations apply. -/
def decChars (n : Nat) : List Char :=
  if n = 0 then [Char.ofNat 48] else ((Nat.digits 10 n).map Nat.digitChar).reverse

/-! Basic facts about the element casts and the Go copy. -/

theorem goCopyCast_eq_map (c : EVal → EVal) (dst src : List EVal)
    (h : dst.length = src.length) : goCopyCast c dst src = src.map c := by
  unfold goCopyCast
  rw [h, List.take_length, ← h, List.drop_length, List.append_nil]

theorem map_id_of_all {c : EVal → EVal} (l : List EVal) (h : ∀ v ∈ l, c v = v) :
    l.map c = l := by
  induction l with
  | nil => rfl
  | cons a t ih => simp_all

theorem etCast_fits {d : EType} {v : EVal} (h : EType.fits d v = true) :
    etCast d v = v := by
  cases d <;> cases v <;> simp_all [EType.fits, etCast] <;> omega

theorem npCastU_fits {nd : NDtype} {v : EVal} (h : NDtype.fits nd v = true) :
    npCastU nd v = v := by
  cases nd <;> cases v <;> simp_all [NDtype.fits, npCastU] <;> omega

theorem fits_dtypeOf {d : EType} {v : EVal} (hd : d ≠ EType.INT)
    (h : EType.fits d v = true) : NDtype.fits (dtypeOf d) v = true := by
  cases d <;> cases v <;> simp_all [EType.fits, NDtype.fits, dtypeOf]

theorem fits_of_dtypeOf {d : EType} {v : EVal} (hd : d.supported = true)
    (h : NDtype.fits (dtypeOf d) v = true) : EType.fits d v = true := by
  cases d <;> cases v <;> simp_all [EType.fits, NDtype.fits, dtypeOf, EType.supported] <;> omega

theorem intcCast_fits {v : EVal} (h : EType.fits EType.INT v = true) :
    NDtype.fits NDtype.int32 (intcCast v) = true := by
  cases v <;> simp_all [EType.fits, intcCast, NDtype.fits] <;> omega

theorem intcCast_fits_et {v : EVal} (h : EType.fits EType.INT v = true) :
    EType.fits EType.INT32 (intcCast v) = true := by
  cases v <;> simp_all [EType.fits, intcCast] <;> omega

theorem newFromArray_id (d : EType) (nar : NDArray)
    (hlen : nar.values.length = prodL nar.shape)
    (hfit : ∀ v ∈ nar.values, etCast d v = v) :
    newFromArray d nar = { dtype := d, shape := nar.shape, values := nar.values } := by
  unfold newFromArray newETensor
  rw [goCopyCast_eq_map (etCast d) _ _ (by simp [hlen]), map_id_of_all _ hfit]

/-- Core round-trip fact shared by the claims: one pass through
`etensor_to_numpy` then `numpy_to_etensor` on a well-formed supported
tensor produces exactly `rtResult`. -/
theorem tensor_roundtrip (et : ETensor) (hwf : et.wf) (hs : et.dtype.supported = true) :
    (etensor_to_numpy et).bind numpy_to_etensor = Except.ok (rtResult et) := by
  obtain ⟨d, shp, vals⟩ := et
  obtain ⟨hfit, hlen⟩ := hwf
  simp only [ETensor.wf] at hfit hlen
  have hfit2 : ∀ v ∈ vals, EType.fits d v = true := by
    intro v hv
    exact List.all_eq_true.mp hfit v hv
  cases d
  case UNKNOWN => simp [EType.supported] at hs
  case INT =>
    simp only [etensor_to_numpy, npReshape, List.length_map]
    rw [if_pos hlen]
    simp only [Except.bind, numpy_to_etensor]
    rw [newFromArray_id _ _ (by simpa using hlen)
      (fun v hv => by
        obtain ⟨w, hw, rfl⟩ := List.mem_map.mp hv
        exact etCast_fits (intcCast_fits_et (hfit2 w hw)))]
    simp [rtResult]
  all_goals
    simp only [etensor_to_numpy, npReshape]
    rw [if_pos hlen]
    simp only [Except.bind, numpy_to_etensor]
    rw [newFromArray_id _ _ hlen (fun v hv => etCast_fits (hfit2 v hv))]
    simp [rtResult]

/-- C1, counterexample: the claim asserts that the round trip preserves
the element-type tag for every type in the closed set, platform-int
included. For the platform-int tensor with shape [1] and value 0 the
round trip succeeds but returns an int32-tagged tensor, because
`np.intc` is `np.int32` on this platform, so the `numpy_to_etensor`
dispatch lands in the int32 branch. -/
theorem c1_counterexample :
    (etensor_to_numpy { dtype := EType.INT, shape := [1], values := [EVal.i 0] }).bind
        numpy_to_etensor =
      Except.ok { dtype := EType.INT32, shape := [1], values := [EVal.i 0] } ∧
    EType.INT32 ≠ EType.INT := by
  exact ⟨by decide, by decide⟩

/-- C1 (amended): for every well-formed tensor of a supported element
type, `numpy_to_etensor` after `etensor_to_numpy` reproduces the tensor
exactly — tag, shape and bit-exact values — for every type except
platform-int; a platform-int tensor comes back tagged int32, with the
same shape and each value narrowed to 32 bits (hence preserved exactly
whenever it fits in int32). -/
theorem c1_roundtrip_amended (et : ETensor) (hwf : et.wf) (hs : et.dtype.supported = true) :
    (et.dtype ≠ EType.INT →
      (etensor_to_numpy et).bind numpy_to_etensor = Except.ok et) ∧
    (et.dtype = EType.INT →
      (etensor_to_numpy et).bind numpy_to_etensor =
        Except.ok { dtype := EType.INT32, shape := et.shape,
                    values := et.values.map intcCast }) := by
  refine ⟨fun hne => ?_, fun he => ?_⟩
  · rw [tensor_roundtrip et hwf hs]
    simp [rtResult, hne]
  · rw [tensor_roundtrip et hwf hs]
    simp [rtResult, he]

theorem c1_roundtrip_amended_witness :
    (etensor_to_numpy { dtype := EType.UINT8, shape := [2], values := [EVal.i 3, EVal.i 250] }).bind
        numpy_to_etensor =
      Except.ok { dtype := EType.UINT8, shape := [2], values := [EVal.i 3, EVal.i 250] } :=
  (c1_roundtrip_amended
    { dtype := EType.UINT8, shape := [2], values := [EVal.i 3, EVal.i 250] }
    ⟨rfl, rfl⟩ rfl).1 (by decide)

/-- C3: evaluation at the failing input. `copy_numpy_to_etensor` is
documented as copying the numpy source into the tensor destination, and
does so for every non-boolean type; but its boolean branch runs the
loop of the opposite direction, so on a Bits destination holding
[true, false] and a numpy bool source holding [false, true] the call
returns with the destination tensor unchanged and the SOURCE array
overwritten with the tensor values. -/
theorem c3_bool_copy_bug_eval :
    copy_numpy_to_etensor
        { dtype := EType.BOOL, shape := [2], values := [EVal.b true, EVal.b false] }
        { dtype := NDtype.bool_, shape := [2], values := [EVal.b false, EVal.b true] } =
      Except.ok
        ({ dtype := EType.BOOL, shape := [2], values := [EVal.b true, EVal.b false] },
         { dtype := NDtype.bool_, shape := [2], values := [EVal.b true, EVal.b false] }) ∧
    ([EVal.b true, EVal.b false] : List EVal) ≠ [EVal.b false, EVal.b true] := by
  exact ⟨by decide, by decide⟩

/-- C6: on a well-formed tensor, `etensor_to_numpy` raises the
unsupported-type error exactly when the declared element type is
outside the closed dispatch set, producing no output at all in that
case, and returns an array (raising nothing) for every type inside the
set. -/
theorem c6_unsupported_raises (et : ETensor) (hwf : et.wf) :
    (et.dtype.supported = false →
      etensor_to_numpy et =
        Except.error (ConvError.unsupportedType "tensor with type cannot be converted")) ∧
    (et.dtype.supported = true → ∃ nar, etensor_to_numpy et = Except.ok nar) := by
  obtain ⟨d, shp, vals⟩ := et
  obtain ⟨hfit, hlen⟩ := hwf
  simp only [ETensor.wf] at hlen
  cases d
  case UNKNOWN =>
    exact ⟨fun _ => rfl, fun hs => by simp [EType.supported] at hs⟩
  all_goals
    refine ⟨fun hf => by simp [EType.supported] at hf, fun _ => ?_⟩
    exact ⟨_, by
      simp only [etensor_to_numpy, npReshape, List.length_map]
      rw [if_pos hlen]⟩

theorem c6_unsupported_raises_witness :
    etensor_to_numpy { dtype := EType.UNKNOWN, shape := [0], values := [] } =
      Except.error (ConvError.unsupportedType "tensor with type cannot be converted") :=
  (c6_unsupported_raises { dtype := EType.UNKNOWN, shape := [0], values := [] }
    ⟨rfl, rfl⟩).1 rfl

/-! Facts about the python dict model and the column name map. -/

theorem dictGet?_dictSet_self {α : Type} (m : List (String × α)) (k : String) (v : α) :
    dictGet? (dictSet m k v) k = some v := by
  induction m with
  | nil => simp [dictSet, dictGet?]
  | cons p t ih =>
    obtain ⟨k0, v0⟩ := p
    by_cases h : k0 = k
    · simp [dictSet, h, dictGet?]
    · simpa [dictSet, h, dictGet?] using ih

theorem dictGet?_dictSet_ne {α : Type} (m : List (String × α)) (k : String) (v : α)
    (k2 : String) (h : k2 ≠ k) : dictGet? (dictSet m k v) k2 = dictGet? m k2 := by
  induction m with
  | nil => simp [dictSet, dictGet?, h, Ne.symm h]
  | cons p t ih =>
    obtain ⟨k0, v0⟩ := p
    by_cases h0 : k0 = k
    · subst h0
      simp [dictSet, dictGet?, Ne.symm h, h]
    · by_cases h2 : k0 = k2
      · subst h2
        simp [dictSet, h0, dictGet?]
      · simpa [dictSet, h0, dictGet?, h2] using ih

theorem mkMap_aux (l : List String) (nm : String) : ∀ (k : Nat) (m : List (String × Nat)),
    dictGet? ((List.enumFrom k l).foldl (fun m p => dictSet m p.2 p.1) m) nm =
      (match lastIdx? l nm with
       | some i => some (i + k)
       | none => dictGet? m nm) := by
  induction l with
  | nil => intro k m; simp [lastIdx?]
  | cons a t ih =>
    intro k m
    simp only [List.enumFrom_cons, List.foldl_cons]
    rw [ih (k + 1) (dictSet m a k)]
    simp only [lastIdx?]
    cases ht : lastIdx? t nm with
    | some i =>
      simp only []
      congr 1
      omega
    | none =>
      simp only []
      by_cases ha : a = nm
      · subst ha
        rw [dictGet?_dictSet_self]
        simp
      · rw [dictGet?_dictSet_ne _ _ _ _ (Ne.symm ha)]
        simp [ha]

theorem dictGet?_mkColNameMap (names : List String) (nm : String) :
    dictGet? (mkColNameMap names) nm = lastIdx? names nm := by
  have h := mkMap_aux names nm 0 []
  unfold mkColNameMap
  rw [show names.enum = List.enumFrom 0 names from rfl, h]
  cases ht : lastIdx? names nm <;> simp [dictGet?]

theorem colMapInv_empty : colMapInv PyEtable.empty :=
  ⟨rfl, fun _ => rfl⟩

theorem colMapInv_update (dt : PyEtable) (h : dt.Cols.length = dt.ColNames.length) :
    colMapInv dt.UpdateColNameMap := by
  exact ⟨h, fun nm => dictGet?_mkColNameMap dt.ColNames nm⟩

/-- C10: the coordination invariant of the PyEtable state — parallel
column and name lists of one length, and a name map sending each name
in the list to the index of its last occurrence with no other keys —
holds after construction and is preserved by AddCol, by every MergeCols
call that returns, and by every ReshapeCol call that returns. -/
theorem c10_colmap_invariant (dt : PyEtable) (h : colMapInv dt) :
    colMapInv PyEtable.empty ∧
    (∀ nar nm, colMapInv (dt.AddCol nar nm)) ∧
    (∀ nm n dt2, dt.MergeCols nm n = Except.ok dt2 → colMapInv dt2) ∧
    (∀ nm shp dt2, dt.ReshapeCol nm shp = Except.ok dt2 → colMapInv dt2) := by
  refine ⟨colMapInv_empty, fun nar nm => ?_, fun nm n dt2 hmc => ?_, fun nm shp dt2 hrs => ?_⟩
  · unfold PyEtable.AddCol
    exact colMapInv_update _ (by simp [h.1])
  · unfold PyEtable.MergeCols at hmc
    split at hmc
    · exact absurd hmc (by simp)
    · split at hmc
      · exact absurd hmc (by simp)
      · injection hmc with h2
        subst h2
        refine colMapInv_update _ ?_
        simp [List.length_take, List.length_drop, List.length_set, h.1]
  · unfold PyEtable.ReshapeCol at hrs
    split at hrs
    · exact absurd hrs (by simp)
    · split at hrs
      · exact absurd hrs (by simp)
      · split at hrs
        · exact absurd hrs (by simp)
        · injection hrs with h2
          subst h2
          exact ⟨by simp [h.1], h.2⟩

theorem c10_colmap_invariant_witness :
    colMapInv (PyEtable.empty.AddCol { dtype := NDtype.uint8, shape := [0], values := [] } "a") :=
  (c10_colmap_invariant PyEtable.empty colMapInv_empty).2.1 _ "a"

/-- C9: `etable_to_torch` keeps exactly the non-string columns, in the
original column order: on a table whose columns are a string column
followed by two non-string columns it returns the two non-string
columns in order; and in general its result is an in-order subsequence
of the columns containing no string-dtype entry. -/
theorem c9_dataset_drops_strings (pt : PyEtable) (a b c2 : NDArray)
    (hcols : pt.Cols = [a, b, c2]) (ha : a.dtype = NDtype.str_)
    (hb : b.dtype ≠ NDtype.str_) (hc : c2.dtype ≠ NDtype.str_) :
    etable_to_torch pt = [b, c2] ∧
    (∀ q : PyEtable, List.Sublist (etable_to_torch q) q.Cols ∧
      ∀ x ∈ etable_to_torch q, x.dtype ≠ NDtype.str_) := by
  constructor
  · unfold etable_to_torch
    rw [hcols]
    have hb2 : (!(b.dtype == NDtype.str_)) = true := by simp [hb]
    have hc2 : (!(c2.dtype == NDtype.str_)) = true := by simp [hc]
    simp [List.filter, ha, hb2, hc2]
  · intro q
    refine ⟨List.filter_sublist _, fun x hx => ?_⟩
    have := List.of_mem_filter hx
    simpa using this

theorem c9_dataset_drops_strings_witness :
    etable_to_torch
      { Cols := [{ dtype := NDtype.str_, shape := [1], values := [EVal.s "x"] },
                 { dtype := NDtype.float64, shape := [1], values := [EVal.f 7] },
                 { dtype := NDtype.float32, shape := [1], values := [EVal.f 8] }],
        ColNames := ["a", "b", "c"], Rows := 1, ColNameMap := [], MetaData := [] } =
      [{ dtype := NDtype.float64, shape := [1], values := [EVal.f 7] },
       { dtype := NDtype.float32, shape := [1], values := [EVal.f 8] }] :=
  (c9_dataset_drops_strings _ _ _ _ rfl rfl (by decide) (by decide)).1

/-! The copy-by-name folds. -/

theorem set_getElem?_self {α : Type} (l : List α) :
    ∀ (i : Nat) (a : α), l[i]? = some a → l.set i a = l := by
  induction l with
  | nil => intro i a h; simp at h
  | cons x t ih =>
    intro i a h
    cases i with
    | zero => simp_all
    | succ j =>
      simp only [List.getElem?_cons_succ] at h
      simp [List.set, ih j a h]

theorem setColByName_self (pt : PyEtable) (cn : String) (pc : NDArray)
    (h : pt.ColByName cn = Except.ok pc) : pt.setColByName cn pc = pt := by
  unfold PyEtable.ColByName at h
  split at h
  · rename_i i hg
    split at h
    · rename_i c hc
      injection h with h2
      subst h2
      unfold PyEtable.setColByName
      simp only [hg]
      simp [set_getElem?_self _ _ _ hc]
    · exact absurd h (by simp)
  · exact absurd h (by simp)

theorem copy_numpy_to_etensor_snd (et : ETensor) (nar : NDArray) (q : ETensor × NDArray)
    (hne : et.dtype ≠ EType.BOOL) (h : copy_numpy_to_etensor et nar = Except.ok q) :
    q.2 = nar := by
  obtain ⟨d, shp, vals⟩ := et
  unfold copy_numpy_to_etensor at h
  cases d
  case BOOL => exact absurd rfl hne
  case UNKNOWN => exact absurd h (by simp)
  all_goals
    simp only [Except.ok.injEq] at h
    rw [← h]

theorem copyPyStep_shape (st : List ETensor × PyEtable) (p : ETensor × String) :
    ∃ x pt2, copyPyStep st p = (st.1 ++ [x], pt2) := by
  unfold copyPyStep
  split
  · exact ⟨p.1, st.2, rfl⟩
  · split
    · exact ⟨p.1, st.2, rfl⟩
    · exact ⟨_, _, rfl⟩

theorem copyPyStep_unknown (st : List ETensor × PyEtable) (dc : ETensor) (cn : String)
    (hu : dc.dtype = EType.UNKNOWN) :
    copyPyStep st (dc, cn) = (st.1 ++ [dc], st.2) := by
  unfold copyPyStep
  split
  · rfl
  · have hcc : copy_numpy_to_etensor dc ‹NDArray› = Except.error
        (ConvError.unsupportedType "tensor with type cannot be copied") := by
      unfold copy_numpy_to_etensor
      rw [hu]
    rw [hcc]

theorem copyPyFold_prefix (ps : List (ETensor × String)) :
    ∀ st : List ETensor × PyEtable, ∃ suf, (ps.foldl copyPyStep st).1 = st.1 ++ suf := by
  induction ps with
  | nil => intro st; exact ⟨[], by simp⟩
  | cons p t ih =>
    intro st
    obtain ⟨x, pt2, hx⟩ := copyPyStep_shape st p
    obtain ⟨suf, hsuf⟩ := ih (st.1 ++ [x], pt2)
    refine ⟨[x] ++ suf, ?_⟩
    simp only [List.foldl_cons, hx]
    rw [hsuf]
    simp

theorem copyPyFold_get_unknown (ps : List (ETensor × String)) :
    ∀ (st : List ETensor × PyEtable) (j : Nat) (dc : ETensor) (cn : String),
      ps[j]? = some (dc, cn) → dc.dtype = EType.UNKNOWN →
      ((ps.foldl copyPyStep st).1)[st.1.length + j]? = some dc := by
  induction ps with
  | nil => intro st j dc cn h; simp at h
  | cons p t ih =>
    intro st j dc cn h hu
    cases j with
    | zero =>
      simp only [List.getElem?_cons_zero, Option.some.injEq] at h
      subst h
      simp only [List.foldl_cons, copyPyStep_unknown st dc cn hu]
      obtain ⟨suf, hsuf⟩ := copyPyFold_prefix t (st.1 ++ [dc], st.2)
      rw [hsuf]
      rw [List.append_assoc]
      rw [List.getElem?_append_right (by omega)]
      simp
    | succ jj =>
      simp only [List.getElem?_cons_succ] at h
      obtain ⟨x, pt2, hx⟩ := copyPyStep_shape st p
      simp only [List.foldl_cons, hx]
      have hres := ih (st.1 ++ [x], pt2) jj dc cn h hu
      simp only [List.length_append, List.length_cons, List.length_nil] at hres
      have : st.1.length + (jj + 1) = st.1.length + 1 + jj := by omega
      rw [this]
      simpa using hres

/-- C5, counterexample: the claim asserts that an UnsupportedType error
raised by a name-matched column conversion propagates out of the table
copy. In fact the per-column body sits in a bare `except: pass`: with a
PyEtable column "a" matched by a table column "a" of a type outside the
dispatch set, both table copy operations return normally and leave
every buffer unchanged. -/
theorem c5_counterexample :
    copy_etable_to_py
        { Cols := [{ dtype := NDtype.uint8, shape := [1], values := [EVal.i 5] }],
          ColNames := ["a"], Rows := 1, ColNameMap := [("a", 0)], MetaData := [] }
        { Cols := [{ dtype := EType.UNKNOWN, shape := [1], values := [EVal.i 0] }],
          ColNames := ["a"], Rows := 1, MetaData := [] } =
      { Cols := [{ dtype := NDtype.uint8, shape := [1], values := [EVal.i 5] }],
        ColNames := ["a"], Rows := 1, ColNameMap := [("a", 0)], MetaData := [] } ∧
    copy_py_to_etable
        { Cols := [{ dtype := EType.UNKNOWN, shape := [1], values := [EVal.i 0] }],
          ColNames := ["a"], Rows := 1, MetaData := [] }
        { Cols := [{ dtype := NDtype.uint8, shape := [1], values := [EVal.i 5] }],
          ColNames := ["a"], Rows := 1, ColNameMap := [("a", 0)], MetaData := [] } =
      ({ Cols := [{ dtype := EType.UNKNOWN, shape := [1], values := [EVal.i 0] }],
         ColNames := ["a"], Rows := 1, MetaData := [] },
       { Cols := [{ dtype := NDtype.uint8, shape := [1], values := [EVal.i 5] }],
         ColNames := ["a"], Rows := 1, ColNameMap := [("a", 0)], MetaData := [] }) := by
  exact ⟨by decide, by decide⟩

/-- C5 (amended): when a per-column conversion inside the table copy
meets a name-matched column of a type outside the dispatch set, the
raised UnsupportedType error is caught by the bare per-column handler
and recovered: the copy completes (both operations are total) and the
matched column is skipped, its destination buffer left unchanged —
shown here for both copy_etable_to_py and copy_py_to_etable. -/
theorem c5_unsupported_swallowed (pt : PyEtable) (et : ETable) (i : Nat) (cn : String)
    (pc : NDArray) (dc : ETensor)
    (hz : (pt.Cols.zip pt.ColNames)[i]? = some (pc, cn))
    (hdc : et.ColByNameTry cn = Except.ok dc) (hu : dc.dtype = EType.UNKNOWN) :
    (copy_etable_to_py pt et).Cols[i]? = some pc ∧
    (∀ (et2 : ETable) (pt2 : PyEtable) (j : Nat) (dc2 : ETensor) (cn2 : String),
      (et2.Cols.zip et2.ColNames)[j]? = some (dc2, cn2) → dc2.dtype = EType.UNKNOWN →
      (copy_py_to_etable et2 pt2).1.Cols[j]? = some dc2) := by
  constructor
  · unfold copy_etable_to_py
    have hcc : copy_etensor_to_numpy pc dc = Except.error
        (ConvError.unsupportedType "tensor with type cannot be copied") := by
      unfold copy_etensor_to_numpy
      rw [hu]
    rw [List.getElem?_map, hz]
    simp [pyToNpCol, hdc, hcc]
  · intro et2 pt2 j dc2 cn2 hz2 hu2
    unfold copy_py_to_etable
    have := copyPyFold_get_unknown (et2.Cols.zip et2.ColNames) ([], pt2) j dc2 cn2 hz2 hu2
    simpa using this

theorem c5_unsupported_swallowed_witness :
    (copy_etable_to_py
        { Cols := [{ dtype := NDtype.uint8, shape := [1], values := [EVal.i 5] }],
          ColNames := ["a"], Rows := 1, ColNameMap := [("a", 0)], MetaData := [] }
        { Cols := [{ dtype := EType.UNKNOWN, shape := [1], values := [EVal.i 0] }],
          ColNames := ["a"], Rows := 1, MetaData := [] }).Cols[0]? =
      some { dtype := NDtype.uint8, shape := [1], values := [EVal.i 5] } :=
  (c5_unsupported_swallowed
    { Cols := [{ dtype := NDtype.uint8, shape := [1], values := [EVal.i 5] }],
      ColNames := ["a"], Rows := 1, ColNameMap := [("a", 0)], MetaData := [] }
    { Cols := [{ dtype := EType.UNKNOWN, shape := [1], values := [EVal.i 0] }],
      ColNames := ["a"], Rows := 1, MetaData := [] }
    0 "a" { dtype := NDtype.uint8, shape := [1], values := [EVal.i 5] }
    { dtype := EType.UNKNOWN, shape := [1], values := [EVal.i 0] }
    (by decide) (by decide) rfl).1

theorem copyPyStep_nostate (st : List ETensor × PyEtable) (dc : ETensor) (cn : String)
    (hnb : dc.dtype ≠ EType.BOOL) :
    copyPyStep st (dc, cn) = (st.1 ++ [pyCopyResult st.2 (dc, cn)], st.2) := by
  unfold copyPyStep pyCopyResult
  split
  · rfl
  · rename_i pc hcol
    split
    · rfl
    · rename_i q hq
      have h2 : q.2 = pc := copy_numpy_to_etensor_snd _ _ _ hnb hq
      rw [h2, setColByName_self st.2 _ pc hcol]

theorem copyPyFold_nostate (ps : List (ETensor × String)) :
    (∀ p ∈ ps, p.1.dtype ≠ EType.BOOL) →
    ∀ (acc : List ETensor) (pt : PyEtable),
      ps.foldl copyPyStep (acc, pt) = (acc ++ ps.map (pyCopyResult pt), pt) := by
  induction ps with
  | nil => intro _ acc pt; simp
  | cons p t ih =>
    intro hnb acc pt
    obtain ⟨dc, cn⟩ := p
    simp only [List.foldl_cons]
    rw [copyPyStep_nostate (acc, pt) dc cn (hnb (dc, cn) (List.mem_cons_self _ _))]
    rw [ih (fun q hq => hnb q (List.mem_cons_of_mem _ hq)) (acc ++ [pyCopyResult pt (dc, cn)]) pt]
    simp

theorem copy_py_to_etable_nostate (et : ETable) (pt : PyEtable)
    (hnb : ∀ c ∈ et.Cols, c.dtype ≠ EType.BOOL) :
    copy_py_to_etable et pt =
      ({ et with Cols := (et.Cols.zip et.ColNames).map (pyCopyResult pt) }, pt) := by
  unfold copy_py_to_etable
  rw [copyPyFold_nostate _ (fun p hp => hnb p.1 (List.of_mem_zip hp).1) [] pt]
  simp

theorem copy_etensor_to_numpy_exact (nar : NDArray) (dc : ETensor)
    (hs : dc.dtype.supported = true) (hne : dc.dtype ≠ EType.INT)
    (hdt : nar.dtype = dtypeOf dc.dtype)
    (hlen : nar.values.length = dc.values.length)
    (hft : ∀ v ∈ dc.values, EType.fits dc.dtype v = true) :
    copy_etensor_to_numpy nar dc = Except.ok { nar with values := dc.values } := by
  obtain ⟨d, shp, vals⟩ := dc
  simp only at hdt hlen hft
  cases d
  case UNKNOWN => simp [EType.supported] at hs
  case INT => exact absurd rfl hne
  case BOOL =>
    simp only [copy_etensor_to_numpy]
    have hm : min vals.length nar.values.length = vals.length := by omega
    rw [hm, List.take_length, ← hlen, List.drop_length]
    rw [map_id_of_all _ (fun v hv => by
      rw [hdt]
      exact npCastU_fits (fits_dtypeOf (by decide) (hft v hv)))]
    simp
  all_goals
    simp only [copy_etensor_to_numpy]
    rw [if_pos hlen]
    rw [map_id_of_all _ (fun v hv => by
      rw [hdt]
      exact npCastU_fits (fits_dtypeOf (by decide) (hft v hv)))]

theorem copy_numpy_to_etensor_exact (dc : ETensor) (pc : NDArray)
    (hs : dc.dtype.supported = true) (hnb : dc.dtype ≠ EType.BOOL)
    (hlen : dc.values.length = pc.values.length)
    (hft : ∀ v ∈ pc.values, EType.fits dc.dtype v = true) :
    copy_numpy_to_etensor dc pc = Except.ok ({ dc with values := pc.values }, pc) := by
  obtain ⟨d, shp, vals⟩ := dc
  simp only at hlen hft
  cases d
  case UNKNOWN => simp [EType.supported] at hs
  case BOOL => exact absurd rfl hnb
  all_goals
    simp only [copy_numpy_to_etensor]
    rw [goCopyCast_eq_map _ _ _ hlen, map_id_of_all _ (fun v hv => etCast_fits (hft v hv))]

/-- C7, counterexample: the claim also asserts that every column whose
name exists in both tables has its values copied into the destination.
For a name-matched boolean-bit column, `copy_py_to_etable` leaves the
destination table column unchanged (the boolean in-place copy runs in
the reverse direction), so the values [true] of the source are not
copied over the destination values [false]. -/
theorem c7_counterexample :
    (copy_py_to_etable
        { Cols := [{ dtype := EType.BOOL, shape := [1], values := [EVal.b false] }],
          ColNames := ["b"], Rows := 1, MetaData := [] }
        { Cols := [{ dtype := NDtype.bool_, shape := [1], values := [EVal.b true] }],
          ColNames := ["b"], Rows := 1, ColNameMap := [("b", 0)], MetaData := [] }).1 =
      { Cols := [{ dtype := EType.BOOL, shape := [1], values := [EVal.b false] }],
        ColNames := ["b"], Rows := 1, MetaData := [] } ∧
    ([EVal.b false] : List EVal) ≠ [EVal.b true] := by
  exact ⟨by decide, by decide⟩

theorem lastIdx?_getElem (l : List String) (x : String) :
    ∀ i : Nat, lastIdx? l x = some i → l[i]? = some x := by
  induction l with
  | nil => intro i h; simp [lastIdx?] at h
  | cons a t ih =>
    intro i h
    unfold lastIdx? at h
    cases ht : lastIdx? t x with
    | some j =>
      rw [ht] at h
      have h2 : some (j + 1) = some i := h
      injection h2 with h3
      subst h3
      simp only [List.getElem?_cons_succ]
      exact ih j ht
    | none =>
      rw [ht] at h
      by_cases ha : a = x
      · rw [if_pos ha] at h
        injection h with h3
        subst h3
        simp [ha]
      · rw [if_neg ha] at h
        exact absurd h (by simp)

theorem set_getElem?_ne {α : Type} (l : List α) :
    ∀ (i j : Nat) (a : α), i ≠ j → (l.set i a)[j]? = l[j]? := by
  induction l with
  | nil => intro i j a _; simp
  | cons x t ih =>
    intro i j a hne
    cases i with
    | zero =>
      cases j with
      | zero => exact absurd rfl hne
      | succ jj => simp [List.set]
    | succ ii =>
      cases j with
      | zero => simp [List.set]
      | succ jj =>
        simp only [List.set, List.getElem?_cons_succ]
        exact ih ii jj a (fun hcc => hne (by omega))

/-- The output column appended by one `copy_py_to_etable` iteration is
`pyCopyResult` of the current PyEtable state, in every branch. -/
theorem copyPyStep_fst (st : List ETensor × PyEtable) (p : ETensor × String) :
    (copyPyStep st p).1 = st.1 ++ [pyCopyResult st.2 p] := by
  unfold copyPyStep pyCopyResult
  split
  · rfl
  · split
    · rfl
    · rfl

/-- One `copy_py_to_etable` iteration never changes the column names or
the name map of the PyEtable state (only a column buffer). -/
theorem copyPyStep_names (st : List ETensor × PyEtable) (p : ETensor × String) :
    (copyPyStep st p).2.ColNames = st.2.ColNames ∧
    (copyPyStep st p).2.ColNameMap = st.2.ColNameMap := by
  unfold copyPyStep
  split
  · exact ⟨rfl, rfl⟩
  · split
    · exact ⟨rfl, rfl⟩
    · show ((st.2.setColByName _ _).ColNames = _) ∧ ((st.2.setColByName _ _).ColNameMap = _)
      unfold PyEtable.setColByName
      split
      · exact ⟨rfl, rfl⟩
      · exact ⟨rfl, rfl⟩

theorem ColByName_eq_of (pt1 pt2 : PyEtable) (cn : String)
    (hm : pt1.ColNameMap = pt2.ColNameMap)
    (hc : ∀ i, dictGet? pt2.ColNameMap cn = some i → pt1.Cols[i]? = pt2.Cols[i]?) :
    pt1.ColByName cn = pt2.ColByName cn := by
  unfold PyEtable.ColByName
  rw [hm]
  cases hgc : dictGet? pt2.ColNameMap cn with
  | none => rfl
  | some ic =>
    show (match pt1.Cols[ic]? with
      | some c => Except.ok c
      | none => Except.error (ConvError.lookupError "column index out of range")) =
      (match pt2.Cols[ic]? with
      | some c => Except.ok c
      | none => Except.error (ConvError.lookupError "column index out of range"))
    rw [hc ic hgc]

/-- Writing an array back under one name leaves every `ColByName` lookup
of a DIFFERENT name unchanged, provided the name map is consistent
(each mapped index holds its name, the C10 invariant). -/
theorem ColByName_setColByName_ne (pt : PyEtable) (nm cn : String) (nar : NDArray)
    (hmapc : ∀ nm2 i, dictGet? pt.ColNameMap nm2 = some i → pt.ColNames[i]? = some nm2)
    (hne : nm ≠ cn) :
    (pt.setColByName nm nar).ColByName cn = pt.ColByName cn := by
  unfold PyEtable.setColByName
  cases hgk : dictGet? pt.ColNameMap nm with
  | none => rfl
  | some ik =>
    apply ColByName_eq_of
    · rfl
    · intro ic hgc
      show (pt.Cols.set ik nar)[ic]? = pt.Cols[ic]?
      have hik := hmapc nm ik hgk
      have hic := hmapc cn ic hgc
      have hii : ik ≠ ic := by
        intro he
        rw [he, hic] at hik
        injection hik with h3
        exact hne h3.symm
      exact set_getElem?_ne pt.Cols ik ic nar hii

/-- One iteration preserves the `ColByName` lookup of any name that is
not the name of a boolean-bit column being processed: a non-bool copy
writes the array it read back unchanged, and a bool write targets a
different index. -/
theorem copyPyStep_lookup (st : List ETensor × PyEtable) (p : ETensor × String) (cn : String)
    (hmapc : ∀ nm i, dictGet? st.2.ColNameMap nm = some i → st.2.ColNames[i]? = some nm)
    (hb : p.1.dtype = EType.BOOL → p.2 ≠ cn) :
    (copyPyStep st p).2.ColByName cn = st.2.ColByName cn := by
  unfold copyPyStep
  split
  · rfl
  · rename_i pc hcol
    split
    · rfl
    · rename_i q hq
      by_cases hbool : p.1.dtype = EType.BOOL
      · show (st.2.setColByName p.2 q.2).ColByName cn = _
        exact ColByName_setColByName_ne st.2 p.2 cn q.2 hmapc (hb hbool)
      · have h2 : q.2 = pc := copy_numpy_to_etensor_snd _ _ _ hbool hq
        show (st.2.setColByName p.2 q.2).ColByName cn = _
        rw [h2, setColByName_self st.2 _ pc hcol]

theorem copyPyFold_lookup (ps : List (ETensor × String)) :
    ∀ (st : List ETensor × PyEtable) (cn : String),
      (∀ nm i, dictGet? st.2.ColNameMap nm = some i → st.2.ColNames[i]? = some nm) →
      (∀ q ∈ ps, q.1.dtype = EType.BOOL → q.2 ≠ cn) →
      ((ps.foldl copyPyStep st).2).ColByName cn = st.2.ColByName cn := by
  induction ps with
  | nil => intro st cn _ _; rfl
  | cons p t ih =>
    intro st cn hmapc hb
    simp only [List.foldl_cons]
    obtain ⟨hnames, hmap⟩ := copyPyStep_names st p
    have hmapc2 : ∀ nm i, dictGet? (copyPyStep st p).2.ColNameMap nm = some i →
        (copyPyStep st p).2.ColNames[i]? = some nm := by
      intro nm i h
      rw [hmap] at h
      rw [hnames]
      exact hmapc nm i h
    rw [ih (copyPyStep st p) cn hmapc2 (fun q hq => hb q (List.mem_cons_of_mem _ hq))]
    exact copyPyStep_lookup st p cn hmapc (hb p (List.mem_cons_self _ _))

theorem pyCopyResult_congr (st1 st2 : PyEtable) (p : ETensor × String)
    (h : st1.ColByName p.2 = st2.ColByName p.2) :
    pyCopyResult st1 p = pyCopyResult st2 p := by
  unfold pyCopyResult
  rw [h]

/-- The j-th output column of the `copy_py_to_etable` fold is
`pyCopyResult` of the INITIAL PyEtable state, provided no earlier
boolean-bit column shares the j-th column's name (an earlier same-named
bool column would overwrite the array read here). -/
theorem copyPyFold_get2 (ps : List (ETensor × String)) :
    ∀ (st : List ETensor × PyEtable) (j : Nat) (dc : ETensor) (cn : String),
      (∀ nm i, dictGet? st.2.ColNameMap nm = some i → st.2.ColNames[i]? = some nm) →
      ps[j]? = some (dc, cn) →
      (∀ (k : Nat) (dck : ETensor) (cnk : String), k < j → ps[k]? = some (dck, cnk) →
        dck.dtype = EType.BOOL → cnk ≠ cn) →
      ((ps.foldl copyPyStep st).1)[st.1.length + j]? = some (pyCopyResult st.2 (dc, cn)) := by
  induction ps with
  | nil => intro st j dc cn _ h _; simp at h
  | cons p t ih =>
    intro st j dc cn hmapc h hearlier
    cases j with
    | zero =>
      simp only [List.getElem?_cons_zero, Option.some.injEq] at h
      subst h
      simp only [List.foldl_cons]
      obtain ⟨suf, hsuf⟩ := copyPyFold_prefix t (copyPyStep st (dc, cn))
      rw [hsuf, copyPyStep_fst]
      rw [Nat.add_zero, List.append_assoc, List.getElem?_append_right (Nat.le_refl st.1.length)]
      simp
    | succ jj =>
      simp only [List.getElem?_cons_succ] at h
      simp only [List.foldl_cons]
      obtain ⟨hnames, hmap⟩ := copyPyStep_names st p
      have hmapc2 : ∀ nm i, dictGet? (copyPyStep st p).2.ColNameMap nm = some i →
          (copyPyStep st p).2.ColNames[i]? = some nm := by
        intro nm i hgi
        rw [hmap] at hgi
        rw [hnames]
        exact hmapc nm i hgi
      have hb0 : p.1.dtype = EType.BOOL → p.2 ≠ cn :=
        fun hbool => hearlier 0 p.1 p.2 (Nat.succ_pos jj) (by simp) hbool
      have hres := ih (copyPyStep st p) jj dc cn hmapc2 h
        (fun k dck cnk hk hzk hbk =>
          hearlier (k + 1) dck cnk (by omega) (by simpa using hzk) hbk)
      have hlen1 : (copyPyStep st p).1.length = st.1.length + 1 := by
        rw [copyPyStep_fst]
        simp
      rw [hlen1] at hres
      have hcongr : pyCopyResult (copyPyStep st p).2 (dc, cn) = pyCopyResult st.2 (dc, cn) :=
        pyCopyResult_congr _ _ (dc, cn) (copyPyStep_lookup st p cn hmapc hb0)
      rw [hcongr] at hres
      have hidx : st.1.length + (jj + 1) = st.1.length + 1 + jj := by omega
      rw [hidx]
      exact hres

theorem pyCopyResult_miss (pt : PyEtable) (p : ETensor × String)
    (h : (pt.ColByName p.2).isOk = false) : pyCopyResult pt p = p.1 := by
  unfold pyCopyResult
  cases hc : pt.ColByName p.2 with
  | error e => rfl
  | ok pc =>
    rw [hc] at h
    simp [Except.isOk, Except.toBool] at h

theorem copy_numpy_to_etensor_bool_fst (et : ETensor) (nar : NDArray)
    (hb : et.dtype = EType.BOOL) :
    ∃ nar2, copy_numpy_to_etensor et nar = Except.ok (et, nar2) := by
  obtain ⟨d, shp, vals⟩ := et
  have hb2 : d = EType.BOOL := hb
  subst hb2
  exact ⟨_, rfl⟩

/-- A name-matched boolean-bit column is NOT copied by
`copy_py_to_etable`: the reversed in-place loop leaves the tensor
exactly as it was. -/
theorem pyCopyResult_bool (pt : PyEtable) (p : ETensor × String) (pc : NDArray)
    (hc : pt.ColByName p.2 = Except.ok pc) (hb : p.1.dtype = EType.BOOL) :
    pyCopyResult pt p = p.1 := by
  obtain ⟨nar2, hcp⟩ := copy_numpy_to_etensor_bool_fst p.1 pc hb
  unfold pyCopyResult
  simp [hc, hcp]

theorem pyCopyResult_copy (pt : PyEtable) (p : ETensor × String) (pc : NDArray)
    (hc : pt.ColByName p.2 = Except.ok pc)
    (hs : p.1.dtype.supported = true) (hnb : p.1.dtype ≠ EType.BOOL)
    (hlen : p.1.values.length = pc.values.length)
    (hft : ∀ v ∈ pc.values, EType.fits p.1.dtype v = true) :
    pyCopyResult pt p = { p.1 with values := pc.values } := by
  have hcopy := copy_numpy_to_etensor_exact p.1 pc hs hnb hlen hft
  unfold pyCopyResult
  simp [hc, hcopy]

/-- `np.copyto` into the canonical `int32` column of a platform-int
tensor narrows every element to 32 bits (`casting=unsafe`). -/
theorem npCastU_int32_intc (v : EVal) (h : EType.fits EType.INT v = true) :
    npCastU NDtype.int32 v = intcCast v := by
  cases v with
  | i z => rfl
  | f b => simp [EType.fits] at h
  | s s2 => simp [EType.fits] at h
  | b bv => simp [EType.fits] at h

theorem copy_etensor_to_numpy_int (nar : NDArray) (dc : ETensor)
    (hint : dc.dtype = EType.INT) (hdt : nar.dtype = NDtype.int32)
    (hlen : nar.values.length = dc.values.length)
    (hft : ∀ v ∈ dc.values, EType.fits EType.INT v = true) :
    copy_etensor_to_numpy nar dc = Except.ok { nar with values := dc.values.map intcCast } := by
  obtain ⟨d, shp, vals⟩ := dc
  have hint2 : d = EType.INT := hint
  subst hint2
  simp only at hlen hft
  simp only [copy_etensor_to_numpy]
  rw [if_pos hlen]
  have hmap : vals.map (npCastU nar.dtype) = vals.map intcCast := by
    rw [hdt]
    exact List.map_congr_left (fun v hv => npCastU_int32_intc v (hft v hv))
  rw [hmap]

/-- C7 (amended): both table copies complete without raising for every
input (they are total functions of the model); a column whose name is
absent from the other table is silently skipped, its buffer unchanged.
For `copy_etable_to_py`, a name-matched tensor column of supported
non-string type is copied into the numpy column: bit-exactly for every
type except platform-int, which narrows elementwise to 32 bits through
`np.copyto` into the canonical int32 column (a string column copies
subject to the numpy column's fixed itemsize, which the unbounded-string
model does not capture, so it is not asserted). For `copy_py_to_etable`,
a name-matched column of supported type is copied exactly into the
tensor EXCEPT a boolean-bit column, which is NOT copied (its in-place
loop runs in the reverse direction and leaves the tensor unchanged);
each per-column result assumes no earlier boolean column shares the same
name, since such a column overwrites the numpy array read afterwards.
Matched columns of unsupported type are skipped (claim C5's theorem).
The name-map hypothesis is the C10 invariant every
program-constructed PyEtable satisfies. -/
theorem c7_name_match_copy (pt : PyEtable) (et : ETable)
    (hmap : pt.ColNameMap = mkColNameMap pt.ColNames) :
    (∀ (i : Nat) (pc : NDArray) (cn : String),
       (pt.Cols.zip pt.ColNames)[i]? = some (pc, cn) →
       (et.ColByNameTry cn).isOk = false →
       (copy_etable_to_py pt et).Cols[i]? = some pc) ∧
    (∀ (i : Nat) (pc : NDArray) (cn : String) (dc : ETensor),
       (pt.Cols.zip pt.ColNames)[i]? = some (pc, cn) →
       et.ColByNameTry cn = Except.ok dc →
       dc.dtype.supported = true → dc.dtype ≠ EType.INT → dc.dtype ≠ EType.STRING →
       pc.dtype = dtypeOf dc.dtype →
       pc.values.length = dc.values.length →
       (∀ v ∈ dc.values, EType.fits dc.dtype v = true) →
       (copy_etable_to_py pt et).Cols[i]? = some { pc with values := dc.values }) ∧
    (∀ (i : Nat) (pc : NDArray) (cn : String) (dc : ETensor),
       (pt.Cols.zip pt.ColNames)[i]? = some (pc, cn) →
       et.ColByNameTry cn = Except.ok dc →
       dc.dtype = EType.INT → pc.dtype = NDtype.int32 →
       pc.values.length = dc.values.length →
       (∀ v ∈ dc.values, EType.fits EType.INT v = true) →
       (copy_etable_to_py pt et).Cols[i]? =
         some { pc with values := dc.values.map intcCast }) ∧
    ((∀ c ∈ et.Cols, c.dtype ≠ EType.BOOL) → (copy_py_to_etable et pt).2 = pt) ∧
    (∀ (j : Nat) (dc : ETensor) (cn : String),
       (et.Cols.zip et.ColNames)[j]? = some (dc, cn) →
       (∀ (k : Nat) (dck : ETensor) (cnk : String), k < j →
          (et.Cols.zip et.ColNames)[k]? = some (dck, cnk) →
          dck.dtype = EType.BOOL → cnk ≠ cn) →
       ((pt.ColByName cn).isOk = false →
          (copy_py_to_etable et pt).1.Cols[j]? = some dc) ∧
       (∀ (pc : NDArray), pt.ColByName cn = Except.ok pc →
          (dc.dtype = EType.BOOL →
             (copy_py_to_etable et pt).1.Cols[j]? = some dc) ∧
          (dc.dtype.supported = true → dc.dtype ≠ EType.BOOL →
           dc.values.length = pc.values.length →
           (∀ v ∈ pc.values, EType.fits dc.dtype v = true) →
           (copy_py_to_etable et pt).1.Cols[j]? =
             some { dc with values := pc.values }))) := by
  refine ⟨fun i pc cn hz hni => ?_,
    fun i pc cn dc hz hdc hs hne hns hdt hlen hft => ?_,
    fun i pc cn dc hz hdc hint hdt hlen hft => ?_,
    fun hnb => ?_,
    fun j dc cn hz hearlier => ?_⟩
  · unfold copy_etable_to_py
    simp only [List.getElem?_map, hz]
    cases hc : et.ColByNameTry cn with
    | ok dc => rw [hc] at hni; simp [Except.isOk, Except.toBool] at hni
    | error e => simp [pyToNpCol, hc]
  · unfold copy_etable_to_py
    simp only [List.getElem?_map, hz]
    have hcopy := copy_etensor_to_numpy_exact pc dc hs hne hdt hlen hft
    simp [pyToNpCol, hdc, hcopy]
  · unfold copy_etable_to_py
    simp only [List.getElem?_map, hz]
    have hcopy := copy_etensor_to_numpy_int pc dc hint hdt hlen hft
    simp [pyToNpCol, hdc, hcopy]
  · rw [copy_py_to_etable_nostate et pt hnb]
  · have hmapc : ∀ nm i, dictGet? pt.ColNameMap nm = some i →
        pt.ColNames[i]? = some nm := by
      intro nm i h
      rw [hmap, dictGet?_mkColNameMap] at h
      exact lastIdx?_getElem pt.ColNames nm i h
    have hget := copyPyFold_get2 (et.Cols.zip et.ColNames) ([], pt) j dc cn hmapc hz hearlier
    have hcols : (copy_py_to_etable et pt).1.Cols[j]? =
        some (pyCopyResult pt (dc, cn)) := by
      show (((et.Cols.zip et.ColNames).foldl copyPyStep ([], pt)).1)[j]? = _
      simpa using hget
    refine ⟨fun hni => ?_, fun pc hpc => ⟨fun hbool => ?_, fun hs hnb2 hlen hft => ?_⟩⟩
    · rw [hcols]
      exact congrArg some (pyCopyResult_miss pt (dc, cn) hni)
    · rw [hcols]
      exact congrArg some (pyCopyResult_bool pt (dc, cn) pc hpc hbool)
    · rw [hcols]
      exact congrArg some (pyCopyResult_copy pt (dc, cn) pc hpc hs hnb2 hlen hft)

theorem c7_name_match_copy_witness :
    (copy_etable_to_py
        { Cols := [{ dtype := NDtype.bool_, shape := [1], values := [EVal.b false] },
                   { dtype := NDtype.uint8, shape := [1], values := [EVal.i 5] },
                   { dtype := NDtype.int32, shape := [1], values := [EVal.i 0] }],
          ColNames := ["b", "x", "n"], Rows := 1,
          ColNameMap := [("b", 0), ("x", 1), ("n", 2)], MetaData := [] }
        { Cols := [{ dtype := EType.BOOL, shape := [1], values := [EVal.b true] },
                   { dtype := EType.UINT8, shape := [1], values := [EVal.i 7] },
                   { dtype := EType.INT, shape := [1], values := [EVal.i 2147483648] }],
          ColNames := ["b", "x", "n"], Rows := 1, MetaData := [] }).Cols[2]? =
      some { dtype := NDtype.int32, shape := [1], values := [EVal.i (-2147483648)] } ∧
    (copy_py_to_etable
        { Cols := [{ dtype := EType.BOOL, shape := [1], values := [EVal.b true] },
                   { dtype := EType.UINT8, shape := [1], values := [EVal.i 7] },
                   { dtype := EType.INT, shape := [1], values := [EVal.i 2147483648] }],
          ColNames := ["b", "x", "n"], Rows := 1, MetaData := [] }
        { Cols := [{ dtype := NDtype.bool_, shape := [1], values := [EVal.b false] },
                   { dtype := NDtype.uint8, shape := [1], values := [EVal.i 5] },
                   { dtype := NDtype.int32, shape := [1], values := [EVal.i 0] }],
          ColNames := ["b", "x", "n"], Rows := 1,
          ColNameMap := [("b", 0), ("x", 1), ("n", 2)], MetaData := [] }).1.Cols[1]? =
      some { dtype := EType.UINT8, shape := [1], values := [EVal.i 5] } := by
  constructor
  · exact ((c7_name_match_copy
      { Cols := [{ dtype := NDtype.bool_, shape := [1], values := [EVal.b false] },
                 { dtype := NDtype.uint8, shape := [1], values := [EVal.i 5] },
                 { dtype := NDtype.int32, shape := [1], values := [EVal.i 0] }],
        ColNames := ["b", "x", "n"], Rows := 1,
        ColNameMap := [("b", 0), ("x", 1), ("n", 2)], MetaData := [] }
      { Cols := [{ dtype := EType.BOOL, shape := [1], values := [EVal.b true] },
                 { dtype := EType.UINT8, shape := [1], values := [EVal.i 7] },
                 { dtype := EType.INT, shape := [1], values := [EVal.i 2147483648] }],
        ColNames := ["b", "x", "n"], Rows := 1, MetaData := [] }
      (by decide)).2.2.1
      2 { dtype := NDtype.int32, shape := [1], values := [EVal.i 0] } "n"
      { dtype := EType.INT, shape := [1], values := [EVal.i 2147483648] }
      (by decide) (by decide) rfl rfl (by decide) (by decide)).trans (by decide)
  · exact (((c7_name_match_copy
      { Cols := [{ dtype := NDtype.bool_, shape := [1], values := [EVal.b false] },
                 { dtype := NDtype.uint8, shape := [1], values := [EVal.i 5] },
                 { dtype := NDtype.int32, shape := [1], values := [EVal.i 0] }],
        ColNames := ["b", "x", "n"], Rows := 1,
        ColNameMap := [("b", 0), ("x", 1), ("n", 2)], MetaData := [] }
      { Cols := [{ dtype := EType.BOOL, shape := [1], values := [EVal.b true] },
                 { dtype := EType.UINT8, shape := [1], values := [EVal.i 7] },
                 { dtype := EType.INT, shape := [1], values := [EVal.i 2147483648] }],
        ColNames := ["b", "x", "n"], Rows := 1, MetaData := [] }
      (by decide)).2.2.2.2
      1 { dtype := EType.UINT8, shape := [1], values := [EVal.i 7] } "x"
      (by decide)
      (by
        intro k dck cnk hk hzk hbk
        cases k with
        | zero =>
          have hzk2 : (some ({ dtype := EType.BOOL, shape := [1], values := [EVal.b true] }, "b") : Option (ETensor × String)) = some (dck, cnk) := hzk
          injection hzk2 with h1
          injection h1 with h2 h3
          subst h3
          decide
        | succ kk => omega)).2
      { dtype := NDtype.uint8, shape := [1], values := [EVal.i 5] }
      (by decide)).2
      (by decide) (by decide) (by decide) (by decide)

/-! The table round trip. -/

theorem dictSet_append_fresh {α : Type} (m : List (String × α)) (k : String) (v : α)
    (h : ∀ q ∈ m, q.1 ≠ k) : dictSet m k v = m ++ [(k, v)] := by
  induction m with
  | nil => rfl
  | cons q t ih =>
    obtain ⟨k0, v0⟩ := q
    have hk : k0 ≠ k := h (k0, v0) (by simp)
    simp only [dictSet, if_neg hk, List.cons_append, List.cons.injEq, true_and]
    exact ih (fun q hq => h q (by simp [hq]))

theorem foldl_dictSet_fresh {α : Type} (l : List (String × α)) :
    ∀ m : List (String × α), (∀ q ∈ m, ∀ p ∈ l, q.1 ≠ p.1) →
      (l.map Prod.fst).Nodup →
      l.foldl (fun m2 p => dictSet m2 p.1 p.2) m = m ++ l := by
  induction l with
  | nil => intro m _ _; simp
  | cons p t ih =>
    intro m hdisj hnd
    simp only [List.foldl_cons]
    rw [dictSet_append_fresh m p.1 p.2 (fun q hq => hdisj q hq p (by simp))]
    rw [ih (m ++ [(p.1, p.2)]) ?_ ?_]
    · simp
    · intro q hq p2 hp2
      rcases List.mem_append.mp hq with hq1 | hq2
      · exact hdisj q hq1 p2 (by simp [hp2])
      · simp only [List.mem_singleton] at hq2
        subst hq2
        simp only [List.map_cons, List.nodup_cons] at hnd
        intro hcon
        exact hnd.1 (hcon ▸ List.mem_map_of_mem Prod.fst hp2)
    · simp only [List.map_cons, List.nodup_cons] at hnd
      exact hnd.2

theorem foldl_SetMetaData (l : List (String × String)) :
    ∀ e : ETable,
      l.foldl (fun e2 p => e2.SetMetaData p.1 p.2) e =
        { e with MetaData := l.foldl (fun m p => dictSet m p.1 p.2) e.MetaData } := by
  induction l with
  | nil => intro e; rfl
  | cons p t ih =>
    intro e
    simp only [List.foldl_cons]
    rw [ih]
    rfl

/-- Successful conversion of every column of a well-formed supported
list, paired with the fact that converting the results back yields the
round-trip images. -/
theorem conv_cols (ps : List (ETensor × String))
    (hwf : ∀ p ∈ ps, p.1.wf) (hs : ∀ p ∈ ps, p.1.dtype.supported = true) :
    ∃ narL : List NDArray,
      ps.mapM (fun p => etensor_to_numpy p.1) = Except.ok narL ∧
      narL.length = ps.length ∧
      (narL.zip (ps.map (fun p => p.2))).mapM (fun q => numpy_to_etensor q.1) =
        Except.ok (ps.map (fun p => rtResult p.1)) := by
  induction ps with
  | nil => exact ⟨[], rfl, rfl, rfl⟩
  | cons p t ih =>
    obtain ⟨narL, hm, hlen, hback⟩ :=
      ih (fun q hq => hwf q (by simp [hq])) (fun q hq => hs q (by simp [hq]))
    have hrt := tensor_roundtrip p.1 (hwf p (by simp)) (hs p (by simp))
    cases hnar : etensor_to_numpy p.1 with
    | error e => rw [hnar] at hrt; exact absurd hrt (by simp [Except.bind])
    | ok nar =>
      rw [hnar] at hrt
      simp only [Except.bind] at hrt
      refine ⟨nar :: narL, ?_, by simp [hlen], ?_⟩
      · rw [List.mapM_cons, hnar, hm]
        simp [Bind.bind, Except.bind, pure, Except.pure]
      · simp only [List.map_cons, List.zip_cons_cons, List.mapM_cons, hrt, hback]
        simp [Bind.bind, Except.bind, pure, Except.pure]

theorem toPyFold (ps : List (ETensor × String)) :
    ∀ (base : PyEtable) (narL : List NDArray),
      ps.mapM (fun p => etensor_to_numpy p.1) = Except.ok narL →
      base.ColNameMap = mkColNameMap base.ColNames →
      ∃ pt, ps.foldlM toPyStep base = Except.ok pt ∧
        pt.Cols = base.Cols ++ narL ∧
        pt.ColNames = base.ColNames ++ ps.map (fun p => p.2) ∧
        pt.Rows = base.Rows ∧ pt.MetaData = base.MetaData ∧
        pt.ColNameMap = mkColNameMap pt.ColNames := by
  induction ps with
  | nil =>
    intro base narL hm hbm
    simp only [List.mapM_nil] at hm
    have hn : narL = [] := by
      cases narL with
      | nil => rfl
      | cons a t => simp [pure, Except.pure] at hm
    subst hn
    exact ⟨base, rfl, by simp, by simp, rfl, rfl, hbm⟩
  | cons p t ih =>
    intro base narL hm hbm
    rw [List.mapM_cons] at hm
    cases hnar : etensor_to_numpy p.1 with
    | error e =>
      rw [hnar] at hm
      simp [Bind.bind, Except.bind] at hm
    | ok nar =>
      rw [hnar] at hm
      simp only [Bind.bind, Except.bind] at hm
      cases hrest : t.mapM (fun p => etensor_to_numpy p.1) with
      | error e =>
        rw [hrest] at hm
        simp [Except.bind] at hm
      | ok rest =>
        rw [hrest] at hm
        simp only [Except.bind, pure, Except.pure, Except.ok.injEq] at hm
        subst hm
        obtain ⟨pt, hfold, hcols, hnames, hrows, hmd, hmap⟩ :=
          ih (base.AddCol nar p.2) rest hrest
            (by simp [PyEtable.AddCol, PyEtable.UpdateColNameMap])
        refine ⟨pt, ?_, ?_, ?_, ?_, ?_, hmap⟩
        · have hstep : toPyStep base p = Except.ok (base.AddCol nar p.2) := by
            unfold toPyStep
            rw [hnar]
            rfl
          rw [List.foldlM_cons, hstep]
          simpa [Except.bind] using hfold
        · rw [hcols]; simp [PyEtable.AddCol, PyEtable.UpdateColNameMap]
        · rw [hnames]; simp [PyEtable.AddCol, PyEtable.UpdateColNameMap]
        · rw [hrows]; simp [PyEtable.AddCol, PyEtable.UpdateColNameMap]
        · rw [hmd]; simp [PyEtable.AddCol, PyEtable.UpdateColNameMap]

theorem toEtFold (ps : List (NDArray × String)) :
    ∀ (base : ETable) (tsrL : List ETensor),
      ps.mapM (fun p => numpy_to_etensor p.1) = Except.ok tsrL →
      ∃ e, ps.foldlM toEtStep base = Except.ok e ∧
        e.Cols = base.Cols ++ tsrL ∧
        e.ColNames = base.ColNames ++ ps.map (fun p => p.2) ∧
        e.Rows = base.Rows ∧ e.MetaData = base.MetaData := by
  induction ps with
  | nil =>
    intro base tsrL hm
    simp only [List.mapM_nil] at hm
    have hn : tsrL = [] := by
      cases tsrL with
      | nil => rfl
      | cons a t => simp [pure, Except.pure] at hm
    subst hn
    exact ⟨base, rfl, by simp, by simp, rfl, rfl⟩
  | cons p t ih =>
    intro base tsrL hm
    rw [List.mapM_cons] at hm
    cases hnar : numpy_to_etensor p.1 with
    | error e =>
      rw [hnar] at hm
      simp [Bind.bind, Except.bind] at hm
    | ok tsr =>
      rw [hnar] at hm
      simp only [Bind.bind, Except.bind] at hm
      cases hrest : t.mapM (fun p => numpy_to_etensor p.1) with
      | error e =>
        rw [hrest] at hm
        simp [Except.bind] at hm
      | ok rest =>
        rw [hrest] at hm
        simp only [Except.bind, pure, Except.pure, Except.ok.injEq] at hm
        subst hm
        obtain ⟨e, hfold, hcols, hnames, hrows, hmd⟩ := ih (base.AddCol tsr p.2) rest hrest
        refine ⟨e, ?_, ?_, ?_, ?_, ?_⟩
        · have hstep : toEtStep base p = Except.ok (base.AddCol tsr p.2) := by
            unfold toEtStep
            rw [hnar]
            rfl
          rw [List.foldlM_cons, hstep]
          simpa [Except.bind] using hfold
        · rw [hcols]; simp [ETable.AddCol]
        · rw [hnames]; simp [ETable.AddCol]
        · rw [hrows]; simp [ETable.AddCol]
        · rw [hmd]; simp [ETable.AddCol]

theorem etable_to_py_spec (t : ETable) (hwf : t.wf) :
    ∃ pt, etable_to_py t = Except.ok pt ∧
      pt.ColNames = t.ColNames ∧ pt.Rows = t.Rows ∧ pt.MetaData = t.MetaData ∧
      pt.Cols.length = t.Cols.length ∧
      (pt.Cols.zip pt.ColNames).mapM (fun q => numpy_to_etensor q.1) =
        Except.ok (t.Cols.map rtResult) := by
  obtain ⟨hlen, hcwf, hcs, hnd⟩ := hwf
  have hmemf : ∀ p ∈ t.Cols.zip t.ColNames, p.1.wf :=
    fun p hp => hcwf p.1 (List.of_mem_zip hp).1
  have hmems : ∀ p ∈ t.Cols.zip t.ColNames, p.1.dtype.supported = true :=
    fun p hp => hcs p.1 (List.of_mem_zip hp).1
  obtain ⟨narL, hm, hl, hback⟩ := conv_cols (t.Cols.zip t.ColNames) hmemf hmems
  obtain ⟨pt0, hfold, hcols, hnames, hrows, hmd, hmap⟩ :=
    toPyFold (t.Cols.zip t.ColNames) { PyEtable.empty with Rows := t.Rows } narL hm rfl
  have hsnd : (t.Cols.zip t.ColNames).map (fun p => p.2) = t.ColNames := by
    rw [show (fun p : ETensor × String => p.2) = Prod.snd from rfl]
    exact List.map_snd_zip _ _ (le_of_eq hlen.symm)
  have hfst : (t.Cols.zip t.ColNames).map (fun p => rtResult p.1) = t.Cols.map rtResult := by
    rw [show (fun p : ETensor × String => rtResult p.1) = rtResult ∘ Prod.fst from rfl,
      ← List.map_map, List.map_fst_zip _ _ (le_of_eq hlen)]
  have hmd0 : pt0.MetaData = [] := by simpa [PyEtable.empty] using hmd
  refine ⟨{ pt0 with MetaData := t.MetaData }, ?_, ?_, ?_, rfl, ?_, ?_⟩
  · unfold etable_to_py
    rw [hfold]
    show Except.ok _ = _
    rw [hmd0, foldl_dictSet_fresh t.MetaData [] (by simp) hnd]
    simp
  · simpa [PyEtable.empty, hsnd] using hnames
  · simpa [PyEtable.empty] using hrows
  · have : pt0.Cols.length = narL.length := by simp [hcols, PyEtable.empty]
    rw [this, hl]
    simp [List.length_zip, hlen]
  · have hcols2 : pt0.Cols = narL := by simpa [PyEtable.empty] using hcols
    have hnames2 : pt0.ColNames = t.ColNames := by simpa [PyEtable.empty, hsnd] using hnames
    show ((pt0.Cols.zip pt0.ColNames).mapM (fun q => numpy_to_etensor q.1)) = _
    rw [hcols2, hnames2, ← hsnd, hback, hfst]

/-- C2, counterexample: the claim asserts that the round trip preserves
all element values of every supported-type column. A platform-int
column holding 2^31 comes back as an int32 column holding -2^31 (the
value is narrowed through np.intc), so the values differ. -/
theorem c2_counterexample :
    (etable_to_py
        { Cols := [{ dtype := EType.INT, shape := [1], values := [EVal.i 2147483648] }],
          ColNames := ["n"], Rows := 1, MetaData := [] }).bind py_to_etable =
      Except.ok
        { Cols := [{ dtype := EType.INT32, shape := [1], values := [EVal.i (-2147483648)] }],
          ColNames := ["n"], Rows := 1, MetaData := [] } ∧
    ([EVal.i 2147483648] : List EVal) ≠ [EVal.i (-2147483648)] := by
  exact ⟨by decide, by decide⟩

/-- C2 (amended): for every well-formed table whose columns all use
supported element types, py_to_etable after etable_to_py produces a
table with the same column names in the same order, the same row
count, the same metadata entries, and per column the round-trip image
`rtResult`: every column except platform-int ones is reproduced
exactly (shape and bit-exact values); a platform-int column comes back
tagged int32 with the same shape and each value narrowed to 32 bits
(hence equal whenever it fits in int32). -/
theorem c2_table_roundtrip_amended (t : ETable) (hwf : t.wf) :
    ∃ t2, (etable_to_py t).bind py_to_etable = Except.ok t2 ∧
      t2.ColNames = t.ColNames ∧ t2.Rows = t.Rows ∧ t2.MetaData = t.MetaData ∧
      t2.Cols = t.Cols.map rtResult ∧
      (∀ c : ETensor, (rtResult c).shape = c.shape) ∧
      (∀ c : ETensor, c.dtype ≠ EType.INT → rtResult c = c) := by
  obtain ⟨pt, hpy, hnames, hrows, hmd, hlen2, hback⟩ := etable_to_py_spec t hwf
  obtain ⟨e, hfold, hcols, hnames2, hrows2, hmd2⟩ :=
    toEtFold (pt.Cols.zip pt.ColNames)
      { Cols := [], ColNames := [], Rows := pt.Rows, MetaData := [] }
      (t.Cols.map rtResult) hback
  have hlen3 : pt.Cols.length = pt.ColNames.length := by
    rw [hlen2, hnames, hwf.1]
  have hsnd : (pt.Cols.zip pt.ColNames).map (fun p => p.2) = pt.ColNames := by
    rw [show (fun p : NDArray × String => p.2) = Prod.snd from rfl]
    exact List.map_snd_zip _ _ (le_of_eq hlen3.symm)
  refine ⟨{ e with MetaData := t.MetaData }, ?_, ?_, ?_, rfl, ?_, ?_, ?_⟩
  · rw [hpy]
    show py_to_etable pt = _
    unfold py_to_etable
    rw [hfold]
    show Except.ok _ = _
    rw [foldl_SetMetaData]
    rw [hmd2]
    rw [hmd, foldl_dictSet_fresh t.MetaData [] (by simp) hwf.2.2.2]
    simp
  · rw [hnames2]
    show [] ++ _ = _
    rw [List.nil_append, hsnd, hnames]
  · simpa using hrows2.trans hrows
  · simpa using hcols
  · intro c
    unfold rtResult
    split
    · rfl
    · rfl
  · intro c hc
    unfold rtResult
    rw [if_neg hc]

theorem c2_table_roundtrip_amended_witness :
    ∃ t2,
      (etable_to_py
          { Cols := [{ dtype := EType.UINT8, shape := [2], values := [EVal.i 1, EVal.i 2] }],
            ColNames := ["x"], Rows := 2, MetaData := [("name", "Pats")] }).bind py_to_etable =
        Except.ok t2 ∧
      t2.ColNames = ["x"] ∧ t2.Rows = 2 ∧ t2.MetaData = [("name", "Pats")] ∧
      t2.Cols =
        ([{ dtype := EType.UINT8, shape := [2], values := [EVal.i 1, EVal.i 2] }] :
          List ETensor).map rtResult ∧
      (∀ c : ETensor, (rtResult c).shape = c.shape) ∧
      (∀ c : ETensor, c.dtype ≠ EType.INT → rtResult c = c) :=
  c2_table_roundtrip_amended
    { Cols := [{ dtype := EType.UINT8, shape := [2], values := [EVal.i 1, EVal.i 2] }],
      ColNames := ["x"], Rows := 2, MetaData := [("name", "Pats")] }
    (by decide)

theorem columnStack_ok (c0 : NDArray) (rest : List NDArray)
    (h1 : ∀ c ∈ c0 :: rest, c.shape = [c.values.length])
    (h2 : ∀ c ∈ c0 :: rest, c.values.length = c0.values.length) :
    columnStack (c0 :: rest) = Except.ok
      { dtype := c0.dtype, shape := [c0.values.length, (c0 :: rest).length],
        values := (List.range c0.values.length).flatMap
          (fun r => (c0 :: rest).map (fun c => c.values.getD r (EVal.i 0))) } := by
  have hcond : ((c0 :: rest).all (fun c => c.shape == [c.values.length]) &&
      rest.all (fun c => c.values.length == c0.values.length)) = true := by
    rw [Bool.and_eq_true, List.all_eq_true, List.all_eq_true]
    constructor
    · intro c hcm
      simpa using h1 c hcm
    · intro c hcm
      simpa using h2 c (List.mem_cons_of_mem _ hcm)
  have hred : columnStack (c0 :: rest) =
      (if (((c0 :: rest).all fun c => c.shape == [c.values.length]) &&
          rest.all fun c => c.values.length == c0.values.length) = true then
        Except.ok { dtype := c0.dtype,
                    shape := [c0.values.length, (c0 :: rest).length],
                    values := (List.range c0.values.length).flatMap
                      (fun r => (c0 :: rest).map (fun c => c.values.getD r (EVal.i 0))) }
      else Except.error (ConvError.valueError "arrays must have the same length")) := rfl
  rw [hred, if_pos hcond]

theorem set_take_drop {α : Type} (l : List α) (i k : Nat) (a : α)
    (hi : i < l.length) (hk : 1 ≤ k) :
    (l.set i a).take (i + 1) ++ (l.set i a).drop (i + k) =
      l.take i ++ [a] ++ l.drop (i + k) := by
  have hlt : (l.take i).length = i := by
    simp only [List.length_take]
    omega
  rw [List.set_eq_take_append_cons_drop, if_pos hi]
  rw [List.take_append_eq_append_take, List.drop_append_eq_append_drop, hlt]
  rw [List.take_take]
  have hmin : min (i + 1) i = i := by omega
  rw [hmin]
  have ht1 : (a :: l.drop (i + 1)).take (i + 1 - i) = [a] := by
    have : i + 1 - i = 1 := by omega
    rw [this]
    rfl
  rw [ht1]
  have hd1 : (l.take i).drop (i + k) = [] := by
    apply List.drop_eq_nil_of_le
    omega
  rw [hd1]
  obtain ⟨k2, rfl⟩ : ∃ k2, k = k2 + 1 := ⟨k - 1, by omega⟩
  have hd2 : (a :: l.drop (i + 1)).drop (i + (k2 + 1) - i) = l.drop (i + (k2 + 1)) := by
    have h3 : i + (k2 + 1) - i = k2 + 1 := by omega
    rw [h3]
    show (l.drop (i + 1)).drop k2 = _
    rw [List.drop_drop]
    congr 1
    omega
  rw [hd2]
  simp

/-- C8: when the start name is present, MergeCols replaces the n
columns beginning there by the single column-stack of their arrays
(shape (rows, n)), keeps the start name, removes the following n-1
column entries and names, and rebuilds the name-to-index map to the
last-occurrence map of the new name list; when the looked-up name is
absent, the lookup raises the KeyError and no table is produced —
and likewise a `ColByName` lookup of an absent name raises the
LookupError-class error (the model returns only the error; the
functional model leaves the input table untouched in both cases). -/
theorem c8_mergecols (dt : PyEtable) (st_nm : String) (n sti R : Nat)
    (hg : dictGet? dt.ColNameMap st_nm = some sti)
    (hn : 1 ≤ n) (hrange : sti + n ≤ dt.Cols.length)
    (h1 : ∀ c ∈ (dt.Cols.drop sti).take n, c.shape = [c.values.length])
    (h2 : ∀ c ∈ (dt.Cols.drop sti).take n, c.values.length = R) :
    (∃ nc dt2, columnStack ((dt.Cols.drop sti).take n) = Except.ok nc ∧
      dt.MergeCols st_nm n = Except.ok dt2 ∧
      nc.shape = [R, n] ∧
      dt2.Cols = dt.Cols.take sti ++ [nc] ++ dt.Cols.drop (sti + n) ∧
      dt2.ColNames = dt.ColNames.take (sti + 1) ++ dt.ColNames.drop (sti + n) ∧
      dt2.Rows = dt.Rows ∧ dt2.MetaData = dt.MetaData ∧
      (∀ nm2, dictGet? dt2.ColNameMap nm2 = lastIdx? dt2.ColNames nm2)) ∧
    (∀ nm2, dictGet? dt.ColNameMap nm2 = none →
      dt.MergeCols nm2 n = Except.error (ConvError.lookupError "KeyError")) ∧
    (∀ nm2, dictGet? dt.ColNameMap nm2 = none →
      dt.ColByName nm2 = Except.error (ConvError.lookupError "column named not found")) := by
  refine ⟨?_, ?_, ?_⟩
  · obtain ⟨c0, rest, hcl⟩ : ∃ c0 rest, (dt.Cols.drop sti).take n = c0 :: rest := by
      cases hcl : (dt.Cols.drop sti).take n with
      | nil =>
        exfalso
        have hl := congrArg List.length hcl
        simp only [List.length_take, List.length_drop, List.length_nil] at hl
        omega
      | cons c0 rest => exact ⟨c0, rest, rfl⟩
    have hclen : ((dt.Cols.drop sti).take n).length = n := by
      simp only [List.length_take, List.length_drop]
      omega
    have hR : c0.values.length = R := h2 c0 (by rw [hcl]; exact List.mem_cons_self _ _)
    have hstack := columnStack_ok c0 rest (hcl ▸ h1) (fun c hc => by
      rw [h2 c (hcl ▸ hc), h2 c0 (by rw [hcl]; exact List.mem_cons_self _ _)])
    rw [← hcl] at hstack
    obtain ⟨nc, hstackv, hshape⟩ :
        ∃ nc, columnStack ((dt.Cols.drop sti).take n) = Except.ok nc ∧ nc.shape = [R, n] := by
      refine ⟨_, hstack, ?_⟩
      show ([c0.values.length, ((dt.Cols.drop sti).take n).length] : List Nat) = [R, n]
      rw [hR, hclen]
    refine ⟨nc, PyEtable.UpdateColNameMap
      { dt with
        Cols := (dt.Cols.set sti nc).take (sti + 1) ++ (dt.Cols.set sti nc).drop (sti + n),
        ColNames := dt.ColNames.take (sti + 1) ++ dt.ColNames.drop (sti + n) },
      hstackv, ?_, hshape, ?_, rfl, rfl, rfl, ?_⟩
    · unfold PyEtable.MergeCols
      rw [hg]
      show (match columnStack ((dt.Cols.drop sti).take n) with
        | Except.error e => Except.error e
        | Except.ok nc2 =>
          Except.ok (PyEtable.UpdateColNameMap
            { dt with
              Cols := (dt.Cols.set sti nc2).take (sti + 1) ++
                (dt.Cols.set sti nc2).drop (sti + n),
              ColNames := dt.ColNames.take (sti + 1) ++ dt.ColNames.drop (sti + n) })) = _
      rw [hstackv]
    · show (dt.Cols.set sti nc).take (sti + 1) ++ (dt.Cols.set sti nc).drop (sti + n) =
        dt.Cols.take sti ++ [nc] ++ dt.Cols.drop (sti + n)
      exact set_take_drop dt.Cols sti n nc (by omega) hn
    · intro nm2
      exact dictGet?_mkColNameMap _ nm2
  · intro nm2 hnone
    unfold PyEtable.MergeCols
    rw [hnone]
  · intro nm2 hnone
    unfold PyEtable.ColByName
    rw [hnone]

theorem c8_mergecols_witness :
    (∃ nc dt2,
      columnStack
          ((([{ dtype := NDtype.int32, shape := [2], values := [EVal.i 1, EVal.i 2] },
              { dtype := NDtype.int32, shape := [2], values := [EVal.i 3, EVal.i 4] }] :
                List NDArray).drop 0).take 2) = Except.ok nc ∧
      PyEtable.MergeCols
          { Cols := [{ dtype := NDtype.int32, shape := [2], values := [EVal.i 1, EVal.i 2] },
                     { dtype := NDtype.int32, shape := [2], values := [EVal.i 3, EVal.i 4] }],
            ColNames := ["p", "q"], Rows := 2,
            ColNameMap := mkColNameMap ["p", "q"], MetaData := [] } "p" 2 = Except.ok dt2 ∧
      nc.shape = [2, 2] ∧
      dt2.Cols =
        ([{ dtype := NDtype.int32, shape := [2], values := [EVal.i 1, EVal.i 2] },
          { dtype := NDtype.int32, shape := [2], values := [EVal.i 3, EVal.i 4] }] :
            List NDArray).take 0 ++ [nc] ++
        ([{ dtype := NDtype.int32, shape := [2], values := [EVal.i 1, EVal.i 2] },
          { dtype := NDtype.int32, shape := [2], values := [EVal.i 3, EVal.i 4] }] :
            List NDArray).drop 2 ∧
      dt2.ColNames = (["p", "q"] : List String).take 1 ++ (["p", "q"] : List String).drop 2 ∧
      dt2.Rows = 2 ∧ dt2.MetaData = [] ∧
      (∀ nm2, dictGet? dt2.ColNameMap nm2 = lastIdx? dt2.ColNames nm2)) ∧
    (∀ nm2,
      dictGet? (mkColNameMap ["p", "q"]) nm2 = none →
      PyEtable.MergeCols
          { Cols := [{ dtype := NDtype.int32, shape := [2], values := [EVal.i 1, EVal.i 2] },
                     { dtype := NDtype.int32, shape := [2], values := [EVal.i 3, EVal.i 4] }],
            ColNames := ["p", "q"], Rows := 2,
            ColNameMap := mkColNameMap ["p", "q"], MetaData := [] } nm2 2 =
        Except.error (ConvError.lookupError "KeyError")) ∧
    (∀ nm2,
      dictGet? (mkColNameMap ["p", "q"]) nm2 = none →
      PyEtable.ColByName
          { Cols := [{ dtype := NDtype.int32, shape := [2], values := [EVal.i 1, EVal.i 2] },
                     { dtype := NDtype.int32, shape := [2], values := [EVal.i 3, EVal.i 4] }],
            ColNames := ["p", "q"], Rows := 2,
            ColNameMap := mkColNameMap ["p", "q"], MetaData := [] } nm2 =
        Except.error (ConvError.lookupError "column named not found")) :=
  c8_mergecols
    { Cols := [{ dtype := NDtype.int32, shape := [2], values := [EVal.i 1, EVal.i 2] },
               { dtype := NDtype.int32, shape := [2], values := [EVal.i 3, EVal.i 4] }],
      ColNames := ["p", "q"], Rows := 2,
      ColNameMap := mkColNameMap ["p", "q"], MetaData := [] }
    "p" 2 0 2 (by decide) (by decide) (by decide) (by decide) (by decide)

/-! Injectivity of the decimal representation used by `spreadName`. -/

theorem toDigitsCore_eq_decChars (f : Nat) : ∀ (n : Nat) (l : List Char), n < f →
    Nat.toDigitsCore 10 f n l = decChars n ++ l := by
  induction f with
  | zero => intro n l h; omega
  | succ f ih =>
    intro n l h
    have hstep : Nat.toDigitsCore 10 (f + 1) n l =
        (if n / 10 = 0 then Nat.digitChar (n % 10) :: l
         else Nat.toDigitsCore 10 f (n / 10) (Nat.digitChar (n % 10) :: l)) := by
      simp [Nat.toDigitsCore]
    rw [hstep]
    by_cases hdiv : n / 10 = 0
    · rw [if_pos hdiv]
      have hlt : n < 10 := by omega
      by_cases hz : n = 0
      · subst hz
        simp [decChars]
        decide
      · have hmod : n % 10 = n := Nat.mod_eq_of_lt hlt
        rw [hmod]
        unfold decChars
        rw [if_neg hz]
        rw [Nat.digits_def' (by norm_num : 1 < 10) (Nat.pos_of_ne_zero hz)]
        rw [hdiv]
        simp [hmod]
    · rw [if_neg hdiv]
      have hge : 10 ≤ n := by
        by_contra hcon
        exact hdiv (Nat.div_eq_of_lt (by omega))
      have hn0 : n ≠ 0 := by omega
      have hrec : n / 10 < f := by
        have h1 : n / 10 < n := Nat.div_lt_self (by omega) (by norm_num)
        omega
      rw [ih (n / 10) (Nat.digitChar (n % 10) :: l) hrec]
      unfold decChars
      rw [if_neg hn0, if_neg (by
        intro hcon
        have := Nat.div_pos hge (by norm_num)
        omega)]
      rw [Nat.digits_def' (by norm_num : 1 < 10) (Nat.pos_of_ne_zero hn0)]
      simp

theorem repr_eq_decChars (n : Nat) : Nat.repr n = (decChars n).asString := by
  show (Nat.toDigits 10 n).asString = _
  unfold Nat.toDigits
  rw [toDigitsCore_eq_decChars (n + 1) n [] (Nat.lt_succ_self n)]
  simp

theorem digitChar_inj_lt : ∀ a < 10, ∀ b < 10, Nat.digitChar a = Nat.digitChar b → a = b := by
  decide

theorem map_digitChar_inj : ∀ (l1 l2 : List Nat), (∀ x ∈ l1, x < 10) → (∀ x ∈ l2, x < 10) →
    l1.map Nat.digitChar = l2.map Nat.digitChar → l1 = l2 := by
  intro l1
  induction l1 with
  | nil =>
    intro l2 _ _ h
    cases l2 with
    | nil => rfl
    | cons b t2 => simp at h
  | cons a t1 ih =>
    intro l2 h1 h2 h
    cases l2 with
    | nil => simp at h
    | cons b t2 =>
      simp only [List.map_cons, List.cons.injEq] at h
      have ha : a = b := digitChar_inj_lt a (h1 a (by simp)) b (h2 b (by simp)) h.1
      rw [ha, ih t2 (fun x hx => h1 x (by simp [hx])) (fun x hx => h2 x (by simp [hx])) h.2]

theorem decChars_inj : ∀ m n : Nat, decChars m = decChars n → m = n := by
  have hkey : ∀ k : Nat, k ≠ 0 → decChars k = decChars 0 → False := by
    intro k hk h
    unfold decChars at h
    rw [if_neg hk, if_pos rfl] at h
    have hrev := congrArg List.reverse h
    simp only [List.reverse_reverse] at hrev
    have : (Nat.digits 10 k).map Nat.digitChar = [Nat.digitChar 0] := by
      simpa using hrev
    have hdig : Nat.digits 10 k = [0] := by
      apply map_digitChar_inj _ [0]
      · intro x hx
        exact Nat.digits_lt_base (by norm_num) hx
      · intro x hx
        simp at hx
        omega
      · simpa using this
    have := Nat.ofDigits_digits 10 k
    rw [hdig] at this
    simp [Nat.ofDigits] at this
    omega
  intro m n h
  by_cases hm : m = 0
  · subst hm
    by_cases hn : n = 0
    · omega
    · exact absurd h.symm (fun hc => hkey n hn hc)
  · by_cases hn : n = 0
    · subst hn
      exact absurd h (fun hc => hkey m hm hc)
    · unfold decChars at h
      rw [if_neg hm, if_neg hn] at h
      have hrev := congrArg List.reverse h
      simp only [List.reverse_reverse] at hrev
      have hdig := map_digitChar_inj (Nat.digits 10 m) (Nat.digits 10 n)
        (fun x hx => Nat.digits_lt_base (by norm_num) hx)
        (fun x hx => Nat.digits_lt_base (by norm_num) hx) hrev
      have h1 := Nat.ofDigits_digits 10 m
      have h2 := Nat.ofDigits_digits 10 n
      rw [hdig] at h1
      rw [h2] at h1
      omega

theorem string_data_inj {a b : String} (h : a.data = b.data) : a = b := by
  cases a
  cases b
  exact congrArg String.mk h

theorem natRepr_inj {m n : Nat} (h : Nat.repr m = Nat.repr n) : m = n := by
  rw [repr_eq_decChars, repr_eq_decChars] at h
  exact decChars_inj m n (congrArg String.data h)

theorem spreadName_inj (cn : String) {i j : Nat} (h : spreadName cn i = spreadName cn j) :
    i = j := by
  unfold spreadName at h
  have hd := congrArg String.data h
  simp only [String.data_append] at hd
  rw [List.append_assoc, List.append_assoc] at hd
  have h2 := List.append_cancel_left hd
  have h3 := List.append_cancel_left h2
  exact natRepr_inj (string_data_inj h3)

/-! The interleave structure of spread columns and the column stack. -/

theorem flatMap_map_comp {α β : Type} (l : List α) (f : α → Nat) (g : Nat → List β) :
    (l.map f).flatMap g = l.flatMap (fun x => g (f x)) := by
  induction l with
  | nil => rfl
  | cons a t ih => simp [ih]

theorem flatMap_congr_mem {α β : Type} (l : List α) (f g : α → List β)
    (h : ∀ a ∈ l, f a = g a) : l.flatMap f = l.flatMap g := by
  induction l with
  | nil => rfl
  | cons a t ih =>
    simp only [List.flatMap_cons]
    rw [h a (by simp), ih (fun x hx => h x (by simp [hx]))]

theorem getD_range_map (R : Nat) (f : Nat → EVal) (d : EVal) (r : Nat) :
    ((List.range R).map f).getD r d = if r < R then f r else d := by
  by_cases h : r < R
  · rw [if_pos h, List.getD_eq_getElem?_getD, List.getElem?_map, List.getElem?_range h]
    rfl
  · rw [if_neg h]
    apply List.getD_eq_default
    simp only [List.length_map, List.length_range]
    omega

theorem getD_drop (l : List EVal) (m n : Nat) (d : EVal) :
    (l.drop m).getD n d = l.getD (m + n) d := by
  rw [List.getD_eq_getElem?_getD, List.getD_eq_getElem?_getD, List.getElem?_drop]

theorem map_range_getD_eq_take (v : List EVal) (d : EVal) (r : Nat) :
    ∀ n, r + n ≤ v.length →
      (List.range n).map (fun i => v.getD (r + i) d) = (v.drop r).take n := by
  intro n
  induction n with
  | zero => intro h; simp
  | succ n ih =>
    intro h
    rw [List.range_succ, List.map_append, ih (by omega)]
    simp only [List.map_cons, List.map_nil]
    rw [List.take_succ]
    congr 1
    have hlt : r + n < v.length := by omega
    have hdd : (v.drop r)[n]? = v[r + n]? := List.getElem?_drop v r n
    rw [hdd, List.getElem?_eq_getElem hlt]
    rw [List.getD_eq_getElem?_getD, List.getElem?_eq_getElem hlt]
    rfl

theorem flatMap_chunks (csz : Nat) : ∀ (R : Nat) (v : List EVal), v.length = R * csz →
    (List.range R).flatMap (fun r => (v.drop (r * csz)).take csz) = v := by
  intro R
  induction R with
  | zero =>
    intro v h
    simp only [Nat.zero_mul] at h
    rw [List.length_eq_zero.mp h]
    rfl
  | succ R ih =>
    intro v h
    rw [List.range_succ_eq_map]
    simp only [List.flatMap_cons]
    rw [flatMap_map_comp]
    have hpt : ∀ r : Nat, (v.drop (Nat.succ r * csz)).take csz =
        ((v.drop csz).drop (r * csz)).take csz := by
      intro r
      rw [List.drop_drop]
      congr 2
      rw [Nat.succ_mul]
      omega
    simp only [hpt]
    have h2 : v.length = R * csz + csz := by rw [h, Nat.succ_mul]
    rw [ih (v.drop csz) (by simp only [List.length_drop]; omega)]
    simp only [Nat.zero_mul, List.drop_zero]
    exact List.take_append_drop csz v

/-- Row-major unflattening: reading back the (row, column) interleave of
a flat buffer of length rows*csz restores the buffer. -/
theorem stack_slices (v : List EVal) (R csz : Nat) (hlen : v.length = R * csz) :
    (List.range R).flatMap
      (fun r => (List.range csz).map (fun i => v.getD (r * csz + i) (EVal.i 0))) = v := by
  have hinner : ∀ r : Nat, r < R →
      (List.range csz).map (fun i => v.getD (r * csz + i) (EVal.i 0)) =
        (v.drop (r * csz)).take csz := by
    intro r hr
    apply map_range_getD_eq_take
    have : (r + 1) * csz ≤ R * csz := Nat.mul_le_mul_right csz (by omega)
    calc r * csz + csz = (r + 1) * csz := by ring
    _ ≤ R * csz := this
    _ = v.length := hlen.symm
  have hcong : (List.range R).flatMap
      (fun r => (List.range csz).map (fun i => v.getD (r * csz + i) (EVal.i 0))) =
      (List.range R).flatMap (fun r => (v.drop (r * csz)).take csz) := by
    apply flatMap_congr_mem
    intro r hr
    exact hinner r (List.mem_range.mp hr)
  rw [hcong]
  exact flatMap_chunks csz R v hlen


theorem lastIdx?_not_mem (x : String) : ∀ t : List String, x ∉ t → lastIdx? t x = none := by
  intro t
  induction t with
  | nil => intro _; rfl
  | cons a t ih =>
    intro hx
    unfold lastIdx?
    rw [ih (fun hc => hx (List.mem_cons_of_mem _ hc))]
    rw [if_neg (fun hc => hx (List.mem_cons.mpr (Or.inl hc.symm)))]

theorem lastIdx?_head (x : String) (t : List String) (hx : x ∉ t) :
    lastIdx? (x :: t) x = some 0 := by
  unfold lastIdx?
  rw [lastIdx?_not_mem x t hx, if_pos rfl]

theorem pandas_fold (l : List (String × NDArray)) :
    ∀ base : PyEtable, base.ColNameMap = mkColNameMap base.ColNames →
      (l.foldl (fun pt2 p => pt2.AddCol p.2 p.1) base).Cols =
        base.Cols ++ l.map (fun p => p.2) ∧
      (l.foldl (fun pt2 p => pt2.AddCol p.2 p.1) base).ColNames =
        base.ColNames ++ l.map (fun p => p.1) ∧
      (l.foldl (fun pt2 p => pt2.AddCol p.2 p.1) base).Rows = base.Rows ∧
      (l.foldl (fun pt2 p => pt2.AddCol p.2 p.1) base).MetaData = base.MetaData ∧
      (l.foldl (fun pt2 p => pt2.AddCol p.2 p.1) base).ColNameMap =
        mkColNameMap (l.foldl (fun pt2 p => pt2.AddCol p.2 p.1) base).ColNames := by
  induction l with
  | nil => intro base hbm; exact ⟨by simp, by simp, rfl, rfl, hbm⟩
  | cons p t ih =>
    intro base hbm
    simp only [List.foldl_cons]
    obtain ⟨h1, h2, h3, h4, h5⟩ := ih (base.AddCol p.2 p.1)
      (by simp [PyEtable.AddCol, PyEtable.UpdateColNameMap])
    refine ⟨?_, ?_, ?_, ?_, h5⟩
    · rw [h1]; simp [PyEtable.AddCol, PyEtable.UpdateColNameMap]
    · rw [h2]; simp [PyEtable.AddCol, PyEtable.UpdateColNameMap]
    · rw [h3]; simp [PyEtable.AddCol, PyEtable.UpdateColNameMap]
    · rw [h4]; simp [PyEtable.AddCol, PyEtable.UpdateColNameMap]

theorem colSlice_values_getD (v : List EVal) (R csz i r : Nat) (hlen : v.length = R * csz) :
    ((List.range R).map (fun r2 => v.getD (r2 * csz + i) (EVal.i 0))).getD r (EVal.i 0) =
      v.getD (r * csz + i) (EVal.i 0) := by
  rw [getD_range_map]
  by_cases h : r < R
  · rw [if_pos h]
  · rw [if_neg h]
    refine (List.getD_eq_default _ _ ?_).symm
    calc v.length = R * csz := hlen
    _ ≤ r * csz := Nat.mul_le_mul_right csz (by omega)
    _ ≤ r * csz + i := Nat.le_add_right _ _

theorem pandas_to_etable_cons (p : String × NDArray) (t : List (String × NDArray)) :
    pandas_to_etable { cols := p :: t } =
      (p :: t).foldl (fun pt2 q => pt2.AddCol q.2 q.1)
        { PyEtable.empty with Rows := p.2.values.length } := rfl

/-- C4: splitting a rank>1 column into its cellSize 1-D frame columns
with `etable_to_pandas`, importing the frame with `pandas_to_etable`,
merging the cellSize columns back with `MergeCols` at the first spread
name, and reshaping that column to the original shape reproduces the
original column exactly: the final table holds the original array
(dtype, shape and every element value), stored under the first spread
name. -/
theorem c4_frame_roundtrip (dc : NDArray) (nm : String) (pt : PyEtable) (R csz : Nat)
    (hcols : pt.Cols = [dc]) (hnames : pt.ColNames = [nm]) (hrows : pt.Rows = R)
    (hrank : 2 ≤ dc.shape.length) (hR : 1 ≤ R) (hcsz : 1 ≤ csz)
    (hlenv : dc.values.length = R * csz)
    (hshape : prodL dc.shape = dc.values.length) :
    ∃ df pt3 pt4,
      etable_to_pandas pt false = Except.ok df ∧
      (pandas_to_etable df).MergeCols (spreadName nm 0) csz = Except.ok pt3 ∧
      pt3.ReshapeCol (spreadName nm 0) dc.shape = Except.ok pt4 ∧
      pt4.Cols = [dc] ∧ pt4.ColNames = [spreadName nm 0] := by
  have hRpos : 0 < R := hR
  obtain ⟨rsv, hrsv⟩ : ∃ x : NDArray, x = { dc with shape := [R, csz] } := ⟨_, rfl⟩
  obtain ⟨pairsL, hpairs⟩ : ∃ l : List (String × NDArray),
      l = (List.range csz).map (fun i => (spreadName nm i, colSlice rsv R csz i)) := ⟨_, rfl⟩
  have hinj : Function.Injective (spreadName nm) := fun i j h => spreadName_inj nm h
  have hslicelen : ∀ i, (colSlice rsv R csz i).values.length = R := by
    intro i
    simp [colSlice]
  obtain ⟨c, hc⟩ : ∃ c, csz = c + 1 := ⟨csz - 1, by omega⟩
  have hpcons : pairsL = (spreadName nm 0, colSlice rsv R csz 0) ::
      (List.range c).map (fun i => (spreadName nm (i + 1), colSlice rsv R csz (i + 1))) := by
    rw [hpairs, hc, List.range_succ_eq_map, List.map_cons, List.map_map]
    rfl
  -- 1. the frame produced by etable_to_pandas
  have hstep : pandasStep R false [] (dc, nm) = Except.ok pairsL := by
    simp only [pandasStep]
    rw [if_neg (by omega)]
    rw [if_neg (by simp)]
    rw [if_neg (by omega)]
    have hdiv : dc.values.length / R = csz := by
      rw [hlenv, Nat.mul_div_cancel_left csz hRpos]
    show (do
        let rs ← npReshape dc [R, dc.values.length / R]
        pure ((List.range (dc.values.length / R)).foldl
          (fun ed2 i => dictSet ed2 (spreadName nm i)
            (colSlice rs R (dc.values.length / R) i)) []))
      = Except.ok pairsL
    rw [hdiv]
    have hresh : npReshape dc [R, csz] = Except.ok rsv := by
      unfold npReshape
      rw [if_pos (by simp [prodL, hlenv])]
      rw [hrsv]
    rw [hresh]
    show Except.ok _ = _
    congr 1
    have hfm := List.foldl_map (fun i => (spreadName nm i, colSlice rsv R csz i))
      (fun (m : List (String × NDArray)) p => dictSet m p.1 p.2) (List.range csz) []
    simp only at hfm
    rw [← hpairs] at hfm
    rw [← hfm, foldl_dictSet_fresh pairsL [] (by simp) ?_]
    · simp
    · have hkeys : (List.map Prod.fst pairsL) = (List.range csz).map (spreadName nm) := by
        rw [hpairs, List.map_map]
        rfl
      rw [hkeys]
      exact (List.nodup_range csz).map hinj
  have hzip : pt.Cols.zip pt.ColNames = [(dc, nm)] := by
    rw [hcols, hnames]
    rfl
  have hall : allSameLen pairsL = true := by
    rw [hpcons]
    unfold allSameLen
    rw [List.all_eq_true]
    intro q hq
    obtain ⟨i, hi, rfl⟩ := List.mem_map.mp hq
    simp [hslicelen]
  have hdf : etable_to_pandas pt false = Except.ok { cols := pairsL } := by
    unfold etable_to_pandas
    rw [hzip, hrows]
    rw [show List.foldlM (pandasStep R false) [] [(dc, nm)] =
      pandasStep R false [] (dc, nm) >>= fun b => pure b from rfl]
    rw [hstep]
    show (if allSameLen pairsL = true then _ else _) = _
    rw [if_pos hall]
    rfl
  -- 2. the PyEtable produced by pandas_to_etable
  have hp2 : pandas_to_etable { cols := pairsL } =
      pairsL.foldl (fun pt2 p => pt2.AddCol p.2 p.1) { PyEtable.empty with Rows := R } := by
    rw [hpcons, pandas_to_etable_cons]
    rw [show ((spreadName nm 0, colSlice rsv R csz 0) : String × NDArray).2.values.length = R
      from hslicelen 0]
  obtain ⟨hc1, hc2, hc3, hc4, hc5⟩ :=
    pandas_fold pairsL { PyEtable.empty with Rows := R } rfl
  obtain ⟨pt2, hpt2⟩ : ∃ x : PyEtable,
      x = pairsL.foldl (fun pt2 p => pt2.AddCol p.2 p.1)
        { PyEtable.empty with Rows := R } := ⟨_, rfl⟩
  rw [← hpt2] at hc1 hc2 hc3 hc4 hc5 hp2
  obtain ⟨slicesL, hsl⟩ : ∃ l : List NDArray,
      l = (List.range csz).map (colSlice rsv R csz) := ⟨_, rfl⟩
  have hcolsL : pt2.Cols = slicesL := by
    rw [hc1, hpairs, List.map_map, hsl]
    show [] ++ _ = _
    rw [List.nil_append]
    rfl
  have hnamesL : pt2.ColNames = (List.range csz).map (spreadName nm) := by
    rw [hc2, hpairs, List.map_map]
    show [] ++ _ = _
    rw [List.nil_append]
    rfl
  -- 3. the merge
  have hnotmem : spreadName nm 0 ∉ (List.range c).map (fun i => spreadName nm (i + 1)) := by
    intro hmem
    obtain ⟨i, hi, heq⟩ := List.mem_map.mp hmem
    exact absurd (hinj heq) (by omega)
  have hnmscons : (List.range csz).map (spreadName nm) =
      spreadName nm 0 :: (List.range c).map (fun i => spreadName nm (i + 1)) := by
    rw [hc, List.range_succ_eq_map, List.map_cons, List.map_map]
    rfl
  have hlook : dictGet? pt2.ColNameMap (spreadName nm 0) = some 0 := by
    rw [hc5, dictGet?_mkColNameMap, hnamesL, hnmscons]
    exact lastIdx?_head _ _ hnotmem
  have hslcons : slicesL = colSlice rsv R csz 0 ::
      (List.range c).map (fun i => colSlice rsv R csz (i + 1)) := by
    rw [hsl, hc, List.range_succ_eq_map, List.map_cons, List.map_map]
    rfl
  have hsllen : slicesL.length = csz := by
    rw [hsl]
    simp
  have hshapes : ∀ s ∈ colSlice rsv R csz 0 ::
      (List.range c).map (fun i => colSlice rsv R csz (i + 1)), s.shape = [s.values.length] := by
    intro s hs
    rw [← hslcons, hsl] at hs
    obtain ⟨i, hi, rfl⟩ := List.mem_map.mp hs
    simp [colSlice]
  have hlens : ∀ s ∈ colSlice rsv R csz 0 ::
      (List.range c).map (fun i => colSlice rsv R csz (i + 1)),
      s.values.length = (colSlice rsv R csz 0).values.length := by
    intro s hs
    rw [← hslcons, hsl] at hs
    obtain ⟨i, hi, rfl⟩ := List.mem_map.mp hs
    rw [hslicelen, hslicelen]
  have hstack := columnStack_ok (colSlice rsv R csz 0)
    ((List.range c).map (fun i => colSlice rsv R csz (i + 1))) hshapes hlens
  rw [← hslcons] at hstack
  have hvals : (List.range (colSlice rsv R csz 0).values.length).flatMap
      (fun r => slicesL.map (fun s => s.values.getD r (EVal.i 0))) = dc.values := by
    rw [hslicelen 0]
    have hin : ∀ r : Nat, slicesL.map (fun s => s.values.getD r (EVal.i 0)) =
        (List.range csz).map (fun i => dc.values.getD (r * csz + i) (EVal.i 0)) := by
      intro r
      rw [hsl, List.map_map]
      apply List.map_congr_left
      intro i hi
      show (colSlice rsv R csz i).values.getD r (EVal.i 0) = _
      rw [hrsv]
      exact colSlice_values_getD dc.values R csz i r hlenv
    simp only [hin]
    exact stack_slices dc.values R csz hlenv
  obtain ⟨nc, hncstack, hncd, hncv⟩ :
      ∃ nc, columnStack slicesL = Except.ok nc ∧ nc.dtype = dc.dtype ∧
        nc.values = dc.values := by
    refine ⟨_, hstack, ?_, hvals⟩
    show (colSlice rsv R csz 0).dtype = dc.dtype
    rw [hrsv]
    rfl
  have htake : (pt2.Cols.drop 0).take csz = slicesL := by
    rw [List.drop_zero, hcolsL, ← hsllen, List.take_length]
  have hmerge : pt2.MergeCols (spreadName nm 0) csz = Except.ok
      (PyEtable.UpdateColNameMap
        { pt2 with
          Cols := (pt2.Cols.set 0 nc).take (0 + 1) ++ (pt2.Cols.set 0 nc).drop (0 + csz),
          ColNames := pt2.ColNames.take (0 + 1) ++ pt2.ColNames.drop (0 + csz) }) := by
    unfold PyEtable.MergeCols
    rw [hlook]
    show (match columnStack ((pt2.Cols.drop 0).take csz) with
      | Except.error e => Except.error e
      | Except.ok nc2 =>
        Except.ok (PyEtable.UpdateColNameMap
          { pt2 with
            Cols := (pt2.Cols.set 0 nc2).take (0 + 1) ++ (pt2.Cols.set 0 nc2).drop (0 + csz),
            ColNames := pt2.ColNames.take (0 + 1) ++ pt2.ColNames.drop (0 + csz) })) = _
    rw [htake, hncstack]
  obtain ⟨pt3v, hpt3⟩ : ∃ x : PyEtable,
      x = PyEtable.UpdateColNameMap
        { pt2 with
          Cols := (pt2.Cols.set 0 nc).take (0 + 1) ++ (pt2.Cols.set 0 nc).drop (0 + csz),
          ColNames := pt2.ColNames.take (0 + 1) ++ pt2.ColNames.drop (0 + csz) } := ⟨_, rfl⟩
  rw [← hpt3] at hmerge
  have hpt3cols : pt3v.Cols = [nc] := by
    rw [hpt3]
    show (pt2.Cols.set 0 nc).take (0 + 1) ++ (pt2.Cols.set 0 nc).drop (0 + csz) = [nc]
    rw [hcolsL, hslcons, List.set_cons_zero]
    rw [show (0 + 1 : Nat) = 1 from rfl, Nat.zero_add csz, hc]
    simp only [List.take_succ_cons, List.take_zero, List.drop_succ_cons]
    rw [List.drop_eq_nil_of_le (by simp), List.append_nil]
  have hpt3names : pt3v.ColNames = [spreadName nm 0] := by
    rw [hpt3]
    show pt2.ColNames.take (0 + 1) ++ pt2.ColNames.drop (0 + csz) = [spreadName nm 0]
    rw [hnamesL, hnmscons]
    rw [show (0 + 1 : Nat) = 1 from rfl, Nat.zero_add csz, hc]
    simp only [List.take_succ_cons, List.take_zero, List.drop_succ_cons]
    rw [List.drop_eq_nil_of_le (by simp), List.append_nil]
  have hpt3map : pt3v.ColNameMap = mkColNameMap pt3v.ColNames := by
    rw [hpt3]
    rfl
  -- 4. the reshape
  have hlook2 : dictGet? pt3v.ColNameMap (spreadName nm 0) = some 0 := by
    rw [hpt3map, hpt3names, dictGet?_mkColNameMap]
    exact lastIdx?_head _ _ (by simp)
  have hget0 : pt3v.Cols[0]? = some nc := by
    rw [hpt3cols]
    rfl
  have hresh2 : npReshape nc dc.shape = Except.ok { nc with shape := dc.shape } := by
    unfold npReshape
    rw [if_pos (by rw [hncv, hshape])]
  have hpt4 : pt3v.ReshapeCol (spreadName nm 0) dc.shape = Except.ok
      { pt3v with Cols := pt3v.Cols.set 0 { nc with shape := dc.shape } } := by
    unfold PyEtable.ReshapeCol
    rw [hlook2]
    show (match pt3v.Cols[0]? with
      | none => Except.error (ConvError.lookupError "list index out of range")
      | some dc2 =>
        match npReshape dc2 dc.shape with
        | Except.error e => Except.error e
        | Except.ok dc3 => Except.ok { pt3v with Cols := pt3v.Cols.set 0 dc3 }) = _
    rw [hget0]
    show (match npReshape nc dc.shape with
      | Except.error e => Except.error e
      | Except.ok dc3 => Except.ok { pt3v with Cols := pt3v.Cols.set 0 dc3 }) = _
    rw [hresh2]
  have hdceq : ({ nc with shape := dc.shape } : NDArray) = dc := by
    show ({ dtype := nc.dtype, shape := dc.shape, values := nc.values } : NDArray) = dc
    rw [hncd, hncv]
  refine ⟨{ cols := pairsL }, pt3v,
    { pt3v with Cols := pt3v.Cols.set 0 { nc with shape := dc.shape } },
    hdf, ?_, hpt4, ?_, ?_⟩
  · show (pandas_to_etable { cols := pairsL }).MergeCols (spreadName nm 0) csz = _
    rw [hp2]
    exact hmerge
  · show pt3v.Cols.set 0 { nc with shape := dc.shape } = [dc]
    rw [hpt3cols, hdceq, List.set_cons_zero]
  · exact hpt3names

theorem c4_frame_roundtrip_witness :
    ∃ df pt3 pt4,
      etable_to_pandas
        { Cols := [{ dtype := NDtype.int32, shape := [2, 2],
                     values := [EVal.i 1, EVal.i 2, EVal.i 3, EVal.i 4] }],
          ColNames := ["a"], Rows := 2, ColNameMap := [("a", 0)], MetaData := [] }
        false = Except.ok df ∧
      (pandas_to_etable df).MergeCols (spreadName "a" 0) 2 = Except.ok pt3 ∧
      pt3.ReshapeCol (spreadName "a" 0) [2, 2] = Except.ok pt4 ∧
      pt4.Cols = [{ dtype := NDtype.int32, shape := [2, 2],
                    values := [EVal.i 1, EVal.i 2, EVal.i 3, EVal.i 4] }] ∧
      pt4.ColNames = [spreadName "a" 0] :=
  c4_frame_roundtrip
    { dtype := NDtype.int32, shape := [2, 2],
      values := [EVal.i 1, EVal.i 2, EVal.i 3, EVal.i 4] } "a"
    { Cols := [{ dtype := NDtype.int32, shape := [2, 2],
                 values := [EVal.i 1, EVal.i 2, EVal.i 3, EVal.i 4] }],
      ColNames := ["a"], Rows := 2, ColNameMap := [("a", 0)], MetaData := [] }
    2 2 rfl rfl rfl (by decide) (by decide) (by decide) (by decide) (by decide)

end Pyet
